import Mathlib

/-!
The record scanner and the field decoder of csvparser.

A shallow embedding of `csvparser/parser.go`.

* A Go byte is a natural number (below 256 in Go; no arithmetic is done on bytes, so the
  development never needs the bound and every theorem holds for bytes in particular).
* A Go `[]byte` and a Go `string` are both `List Byte`: `string(b)` copies the bytes.
* A Go `error` is `Option Error`, `none` being `nil`.
* An `io.Reader` read through a one-byte buffer is the list of the results its successive
  `Read` calls return; once the list is exhausted every further `Read` returns `(0, io.EOF)`.
  Every call of `ReadLine` on such a reader returns, so `ReadLine` is a total function; a
  reader that answers `(0, nil)` for ever, on which the Go loop does not return, is not one
  of these readers.
* A finite byte stream is the reader `ofBytes s`: each byte is delivered with a nil error.
-/

namespace CsvParser

/-- One byte of input. -/
abbrev Byte := Nat

/-- The byte `'\r'`. -/
def CR : Byte := 13
/-- The byte `'\n'`. -/
def LF : Byte := 10
/-- The byte `'"'`. -/
def QUOTE : Byte := 34
/-- The byte `','`. -/
def COMMA : Byte := 44

/-- Error values: `io.EOF`, the two package errors `ErrQuote` and `ErrFieldCount`, and
any other error value a reader may hand back. -/
inductive Error where
  | EOF
  | ErrQuote
  | ErrFieldCount
  | other (code : Nat)
  deriving DecidableEq, Repr

deriving instance DecidableEq for Except

/-! parseFields -/

/-- The `for` loop of `parseFields` run over the bytes that remain from position `i` on,
with the loop variables `fields`, `field` and `inQuotes`; the `[]` case is the code after
the loop.  `i++` inside the body (escaped quote) drops two bytes at once. -/
def parseLoop : List Byte → List (List Byte) → List Byte → Bool →
    Except Error (List (List Byte))
  | [], fields, field, inQuotes =>
      if inQuotes then .error .ErrQuote else .ok (fields ++ [field])
  | c :: rest, fields, field, true =>
      if c = QUOTE then
        match rest with
        | c2 :: rest2 =>
            if c2 = QUOTE then parseLoop rest2 fields (field ++ [QUOTE]) true
            else parseLoop (c2 :: rest2) fields field false
        | [] => parseLoop [] fields field false
      else parseLoop rest fields (field ++ [c]) true
  | c :: rest, fields, field, false =>
      if c = COMMA then parseLoop rest (fields ++ [field]) [] false
      else if c = QUOTE then
        if field.length = 0 then parseLoop rest fields field true
        else .error .ErrQuote
      else parseLoop rest fields (field ++ [c]) false

/-- The `for` loop of `parseFields` alone: the loop variables `fields`, `field` and
`inQuotes` when the loop condition fails, or the error of the `return nil, ErrQuote` in
the loop body (a double-quote met outside quotes with a non-empty field buffer). -/
def parsePass : List Byte → List (List Byte) → List Byte → Bool →
    Except Error (List (List Byte) × List Byte × Bool)
  | [], fields, field, inQuotes => .ok (fields, field, inQuotes)
  | c :: rest, fields, field, true =>
      if c = QUOTE then
        match rest with
        | c2 :: rest2 =>
            if c2 = QUOTE then parsePass rest2 fields (field ++ [QUOTE]) true
            else parsePass (c2 :: rest2) fields field false
        | [] => parsePass [] fields field false
      else parsePass rest fields (field ++ [c]) true
  | c :: rest, fields, field, false =>
      if c = COMMA then parsePass rest (fields ++ [field]) [] false
      else if c = QUOTE then
        if field.length = 0 then parsePass rest fields field true
        else .error .ErrQuote
      else parsePass rest fields (field ++ [c]) false

/-- The code of `parseFields` after the loop. -/
def afterPass (st : List (List Byte) × List Byte × Bool) : Except Error (List (List Byte)) :=
  if st.2.2 then .error .ErrQuote else .ok (st.1 ++ [st.2.1])

/-- Go `parseFields(line)`: `fields` and `field` start nil, `inQuotes` false. -/
def parseFields (line : List Byte) : Except Error (List (List Byte)) :=
  parseLoop line [] [] false

/-! ReadLine -/

/-- What one `r.Read(tmp)` with `len(tmp) = 1` returns: the byte put in `tmp[0]` when
`n > 0`, and the error. -/
structure ReadResult where
  byte : Option Byte
  err : Option Error
  deriving DecidableEq, Repr

/-- A reader: the results of its successive `Read` calls. -/
abbrev Source := List ReadResult

/-- How the `for` loop of `ReadLine` is left: by `break`, or by a `return "", e`. -/
inductive LoopExit where
  | brk
  | ret (e : Error)
  deriving DecidableEq, Repr

/-- Outcome of one loop iteration: go round again, or leave the loop. -/
inductive Step where
  | next (buffer : List Byte) (inQuotes : Bool)
  | stop (buffer : List Byte) (exit : LoopExit)
  deriving DecidableEq, Repr

/-- The branch `if err == io.EOF`. -/
def atEOF (buffer : List Byte) (inQuotes : Bool) : LoopExit :=
  if inQuotes then .ret .ErrQuote
  else if buffer.length = 0 then .ret .EOF
  else .brk

/-- The two error tests that end an iteration of the loop. -/
def errCheck (err : Option Error) (buffer : List Byte) (inQuotes : Bool) : Step :=
  match err with
  | some .EOF => .stop buffer (atEOF buffer inQuotes)
  | some e => .stop buffer (.ret e)
  | none => .next buffer inQuotes

/-- One iteration of the loop of `ReadLine` on the read result `r`. -/
def iteration (r : ReadResult) (buffer : List Byte) (inQuotes : Bool) : Step :=
  match r.byte with
  | some c =>
      if c = CR then .next buffer inQuotes
      else
        let inQuotes := if c = QUOTE then !inQuotes else inQuotes
        if c = LF ∧ inQuotes = false then .stop buffer .brk
        else errCheck r.err (buffer ++ [c]) inQuotes
  | none => errCheck r.err buffer inQuotes

/-- State when the loop of `ReadLine` is left: the buffer, how it was left, and the read
results not yet consumed. -/
structure Scan where
  buffer : List Byte
  exit : LoopExit
  rest : Source
  deriving DecidableEq, Repr

/-- The `for` loop of `ReadLine`.  On an exhausted source `Read` returns `(0, io.EOF)`. -/
def readLoop : Source → List Byte → Bool → Scan
  | [], buffer, inQuotes => ⟨buffer, atEOF buffer inQuotes, []⟩
  | r :: rs, buffer, inQuotes =>
      match iteration r buffer inQuotes with
      | .next buffer inQuotes => readLoop rs buffer inQuotes
      | .stop buffer exit => ⟨buffer, exit, rs⟩

/-- Invariant of the loop of `ReadLine`: the buffer holds no carriage-return, `inQuotes`
is the parity of the double-quotes stored, and every stored line-feed comes after an odd
number of stored double-quotes. -/
def scanInv (buffer : List Byte) (inQuotes : Bool) : Prop :=
  CR ∉ buffer
    ∧ buffer.count QUOTE % 2 = (if inQuotes then 1 else 0)
    ∧ ∀ pre post, buffer = pre ++ LF :: post → pre.count QUOTE % 2 = 1

/-- Go `type parser struct`; a nil `fields` is the empty list. -/
structure parser where
  buffer : List Byte
  fields : List (List Byte)
  deriving DecidableEq, Repr

/-- What a call of `ReadLine` leaves behind: the returned pair, the parser and the reader. -/
structure ReadLineResult where
  text : List Byte
  err : Option Error
  p : parser
  rest : Source
  deriving DecidableEq, Repr

/-- Go `(p *parser) ReadLine(r)`.  Before the loop the incoming buffer is truncated
(`p.buffer[:0]`) and the incoming fields are set to nil; on a decoder error `p.fields`
receives the nil that `parseFields` returns. -/
def ReadLine (p : parser) (r : Source) : ReadLineResult :=
  let p : parser := ⟨p.buffer.take 0, []⟩
  let s := readLoop r p.buffer false
  match s.exit with
  | .ret e => ⟨[], some e, ⟨s.buffer, p.fields⟩, s.rest⟩
  | .brk =>
      match parseFields s.buffer with
      | .error e => ⟨[], some e, ⟨s.buffer, []⟩, s.rest⟩
      | .ok fields => ⟨s.buffer, none, ⟨s.buffer, fields⟩, s.rest⟩

/-- Go `(p *parser) GetNumberOfFields()`. -/
def GetNumberOfFields (p : parser) : Int := p.fields.length

/-- Go `(p *parser) GetField(n)`. -/
def GetField (p : parser) (n : Int) : List Byte × Option Error :=
  if n < 0 ∨ n ≥ p.fields.length then ([], some .ErrFieldCount)
  else (p.fields.getD n.toNat [], none)

/-- Go `NewParser()`. -/
def NewParser : parser := ⟨[], []⟩

/-- A reader over a finite byte sequence: every byte comes with a nil error, then
end-of-stream. -/
def ofBytes (bs : List Byte) : Source := bs.map (fun b => ⟨some b, none⟩)

/-! Writing records (the encoder the round-trip claims speak of) -/

/-- Double every double-quote of a field. -/
def escape : List Byte → List Byte
  | [] => []
  | c :: cs => if c = QUOTE then QUOTE :: QUOTE :: escape cs else c :: escape cs

/-- A field written enclosed in double-quotes, inner double-quotes doubled. -/
def quoted (f : List Byte) : List Byte := QUOTE :: (escape f ++ [QUOTE])

/-- A field written bare (`q = false`) or quoted (`q = true`). -/
def writeField (w : List Byte × Bool) : List Byte :=
  if w.2 then quoted w.1 else w.1

/-- Written fields joined with single commas. -/
def joinComma (ws : List (List Byte)) : List Byte := [COMMA].intercalate ws

/-! Streams (the inputs the scanner claims speak of) -/

/-- A byte sequence with every carriage-return byte deleted. -/
def stripCR (s : List Byte) : List Byte := s.filter (fun b => b ≠ CR)

/-- A record terminator: line-feed, or carriage-return then line-feed. -/
def terminator (crlf : Bool) : List Byte := if crlf then [CR, LF] else [LF]

/-- The stream `r1 T1 r2 T2 ... rk`: every record of `rs` followed by its terminator, then
the final record `last` with nothing after it. -/
def stream (rs : List (List Byte × Bool)) (last : List Byte) : List Byte :=
  match rs with
  | [] => last
  | r :: rs => r.1 ++ terminator r.2 ++ stream rs last

/-- `ReadLine` called `n` times in a row with one parser on one reader; for each call the
returned text, the returned error and the field list the parser holds afterwards. -/
def readLines : Nat → parser → Source → List (List Byte × Option Error × List (List Byte))
  | 0, _, _ => []
  | n + 1, p, r =>
      let res := ReadLine p r
      (res.text, res.err, res.p.fields) :: readLines n res.p res.rest

/-! Lemmas on parseLoop -/

theorem joinComma_single (w : List Byte) : joinComma [w] = w := by
  simp [joinComma, List.intercalate, List.intersperse]

theorem joinComma_cons_cons (w v : List Byte) (ws : List (List Byte)) :
    joinComma (w :: v :: ws) = w ++ COMMA :: joinComma (v :: ws) := by
  simp [joinComma, List.intercalate, List.intersperse]

theorem parseLoop_nil (fields : List (List Byte)) (field : List Byte) (inQuotes : Bool) :
    parseLoop [] fields field inQuotes
      = if inQuotes then .error .ErrQuote else .ok (fields ++ [field]) := by
  cases inQuotes <;> rfl

theorem parseLoop_outside (c : Byte) (rest : List Byte) (fields : List (List Byte))
    (field : List Byte) :
    parseLoop (c :: rest) fields field false
      = if c = COMMA then parseLoop rest (fields ++ [field]) [] false
        else if c = QUOTE then
          if field.length = 0 then parseLoop rest fields field true
          else .error .ErrQuote
        else parseLoop rest fields (field ++ [c]) false := by
  rw [parseLoop]

theorem parseLoop_inside_other (c : Byte) (rest : List Byte) (fields : List (List Byte))
    (field : List Byte) (h : c ≠ QUOTE) :
    parseLoop (c :: rest) fields field true = parseLoop rest fields (field ++ [c]) true := by
  cases rest <;> simp [parseLoop, h]

theorem parseLoop_inside_escaped (rest : List Byte) (fields : List (List Byte))
    (field : List Byte) :
    parseLoop (QUOTE :: QUOTE :: rest) fields field true
      = parseLoop rest fields (field ++ [QUOTE]) true := by
  simp [parseLoop]

theorem parseLoop_inside_close (rest : List Byte) (fields : List (List Byte))
    (field : List Byte) (h : rest.head? ≠ some QUOTE) :
    parseLoop (QUOTE :: rest) fields field true = parseLoop rest fields field false := by
  cases rest with
  | nil => simp [parseLoop]
  | cons c2 rest2 =>
      have h2 : c2 ≠ QUOTE := by simpa using h
      simp [parseLoop, h2]

/-- Outside quotes, a run of bytes free of commas and quotes is appended to the field. -/
theorem parseLoop_bare (f rest : List Byte) (fields : List (List Byte)) (field : List Byte)
    (hc : COMMA ∉ f) (hq : QUOTE ∉ f) :
    parseLoop (f ++ rest) fields field false = parseLoop rest fields (field ++ f) false := by
  induction f generalizing field with
  | nil => simp
  | cons c cs ih =>
      have h1 : c ≠ COMMA := fun h => hc (by simp [h])
      have h2 : c ≠ QUOTE := fun h => hq (by simp [h])
      have hc2 : COMMA ∉ cs := fun h => hc (List.mem_cons_of_mem _ h)
      have hq2 : QUOTE ∉ cs := fun h => hq (List.mem_cons_of_mem _ h)
      rw [List.cons_append, parseLoop_outside, if_neg h1, if_neg h2, ih _ hc2 hq2]
      simp

/-- Inside quotes, an escaped field followed by a closing quote (one not followed by a
further quote) is decoded to the field, and the loop is outside quotes again. -/
theorem parseLoop_escape (f rest : List Byte) (fields : List (List Byte)) (field : List Byte)
    (hr : rest.head? ≠ some QUOTE) :
    parseLoop (escape f ++ QUOTE :: rest) fields field true
      = parseLoop rest fields (field ++ f) false := by
  induction f generalizing field with
  | nil =>
      rw [escape, List.nil_append, parseLoop_inside_close _ _ _ hr]
      simp
  | cons c cs ih =>
      by_cases h : c = QUOTE
      · subst h
        rw [escape, if_pos rfl, List.cons_append, List.cons_append, parseLoop_inside_escaped, ih]
        simp
      · rw [escape, if_neg h, List.cons_append, parseLoop_inside_other _ _ _ _ h, ih]
        simp

/-- Outside quotes with an empty field buffer, one written field is decoded to the field. -/
theorem parseLoop_writeField (w : List Byte × Bool) (rest : List Byte)
    (fields : List (List Byte)) (hw : w.2 = false → COMMA ∉ w.1 ∧ QUOTE ∉ w.1)
    (hr : rest.head? ≠ some QUOTE) :
    parseLoop (writeField w ++ rest) fields [] false = parseLoop rest fields w.1 false := by
  obtain ⟨f, q⟩ := w
  cases q with
  | false =>
      obtain ⟨hc, hq⟩ := hw rfl
      simpa [writeField] using parseLoop_bare f rest fields [] hc hq
  | true =>
      have h := parseLoop_escape f rest fields [] hr
      simp only [List.nil_append] at h
      have hne : QUOTE ≠ COMMA := by decide
      simp only [writeField, quoted, if_true, List.cons_append, List.append_assoc,
        List.singleton_append]
      rw [parseLoop_outside, if_neg hne, if_pos rfl, if_pos (by simp), List.nil_append, h]

/-- Decoding the comma-joined written fields appends the fields to those already found. -/
theorem parseLoop_joinComma (ws : List (List Byte × Bool)) (fields : List (List Byte))
    (hne : ws ≠ []) (hw : ∀ w ∈ ws, w.2 = false → COMMA ∉ w.1 ∧ QUOTE ∉ w.1) :
    parseLoop (joinComma (ws.map writeField)) fields [] false
      = .ok (fields ++ ws.map Prod.fst) := by
  induction ws generalizing fields with
  | nil => exact absurd rfl hne
  | cons w ws ih =>
      cases ws with
      | nil =>
          have h := parseLoop_writeField w [] fields (hw w (by simp)) (by simp)
          simp only [List.append_nil] at h
          simp [joinComma_single, h, parseLoop_nil]
      | cons v vs =>
          have h := parseLoop_writeField w (COMMA :: joinComma ((v :: vs).map writeField))
            fields (hw w (by simp)) (by simp [COMMA, QUOTE])
          simp only [List.map_cons, joinComma_cons_cons]
          simp only [List.map_cons] at h
          rw [h, parseLoop_outside, if_pos rfl]
          have ih2 := ih (fields ++ [w.1]) (by simp)
            (fun u hu => hw u (List.mem_cons_of_mem _ hu))
          simp only [List.map_cons] at ih2
          rw [ih2]
          simp

/-- Outside quotes, a quote that follows a non-empty field buffer is rejected. -/
theorem parseLoop_midQuote (p rest : List Byte) (fields : List (List Byte))
    (field : List Byte) (hq : QUOTE ∉ p) (h0 : p = [] → field ≠ [])
    (hl : p.getLast? ≠ some COMMA) :
    parseLoop (p ++ QUOTE :: rest) fields field false = .error .ErrQuote := by
  induction p generalizing fields field with
  | nil =>
      have hf : field.length ≠ 0 := by
        have := h0 rfl
        simpa using this
      have hne : QUOTE ≠ COMMA := by decide
      rw [List.nil_append, parseLoop_outside, if_neg hne, if_pos rfl, if_neg hf]
  | cons c cs ih =>
      have h2 : c ≠ QUOTE := fun h => hq (by simp [h])
      have hq2 : QUOTE ∉ cs := fun h => hq (List.mem_cons_of_mem _ h)
      have hl2 : cs.getLast? ≠ some COMMA := by
        intro h
        apply hl
        cases cs with
        | nil => simp at h
        | cons d ds => simpa [List.getLast?_cons_cons] using h
      by_cases h1 : c = COMMA
      · subst h1
        have hcs : cs ≠ [] := by
          intro h
          subst h
          simp at hl
        rw [List.cons_append, parseLoop_outside, if_pos rfl]
        exact ih _ _ hq2 (fun h => absurd h hcs) hl2
      · rw [List.cons_append, parseLoop_outside, if_neg h1, if_neg h2]
        exact ih _ _ hq2 (fun _ => by simp) hl2

/-- A record whose quote bytes, counted together with an already open quote, are odd in
number is rejected by the loop. -/
theorem parseLoop_odd (n : Nat) : ∀ (l : List Byte), l.length ≤ n →
    ∀ (fields : List (List Byte)) (field : List Byte) (inQuotes : Bool),
    (l.count QUOTE + (if inQuotes then 1 else 0)) % 2 = 1 →
    parseLoop l fields field inQuotes = .error .ErrQuote := by
  induction n with
  | zero =>
      intro l hl fields field inQuotes h
      have : l = [] := List.length_eq_zero.mp (Nat.le_zero.mp hl)
      subst this
      cases inQuotes with
      | false => simp at h
      | true => simp [parseLoop_nil]
  | succ n ih =>
      intro l hl fields field inQuotes h
      cases l with
      | nil =>
          cases inQuotes with
          | false => simp at h
          | true => simp [parseLoop_nil]
      | cons c rest =>
          have hrest : rest.length ≤ n := by simpa using hl
          cases inQuotes with
          | false =>
              rw [parseLoop_outside]
              by_cases h1 : c = COMMA
              · rw [if_pos h1]
                apply ih rest hrest
                have : c ≠ QUOTE := by rw [h1]; decide
                simpa [List.count_cons, this] using h
              · rw [if_neg h1]
                by_cases h2 : c = QUOTE
                · rw [if_pos h2]
                  by_cases h3 : field.length = 0
                  · rw [if_pos h3]
                    apply ih rest hrest
                    simpa [List.count_cons, h2] using h
                  · rw [if_neg h3]
                · rw [if_neg h2]
                  apply ih rest hrest
                  simpa [List.count_cons, h2] using h
          | true =>
              by_cases h2 : c = QUOTE
              · subst h2
                cases rest with
                | nil => simp at h
                | cons c2 rest2 =>
                    have hrest2 : rest2.length ≤ n := by
                      simp only [List.length_cons] at hrest
                      omega
                    by_cases h3 : c2 = QUOTE
                    · subst h3
                      rw [parseLoop_inside_escaped]
                      apply ih rest2 hrest2
                      simp only [List.count_cons_self, if_true] at h ⊢
                      omega
                    · rw [parseLoop_inside_close _ _ _ (by simpa using h3)]
                      apply ih (c2 :: rest2) hrest
                      simp only [List.count_cons_self, if_true] at h
                      simp only [Bool.false_eq_true, if_false]
                      omega
              · rw [parseLoop_inside_other _ _ _ _ h2]
                apply ih rest hrest
                simpa [List.count_cons, h2] using h

/-- On a record without quotes the loop splits at the commas. -/
theorem parseLoop_splitOn (l : List Byte) (fields : List (List Byte)) (field : List Byte)
    (hq : QUOTE ∉ l) :
    parseLoop l fields field false
      = .ok (fields ++ List.splitOnP.go (fun b => b == COMMA) l field.reverse) := by
  induction l generalizing fields field with
  | nil => simp [parseLoop_nil, List.splitOnP.go]
  | cons c cs ih =>
      have h2 : c ≠ QUOTE := fun h => hq (by simp [h])
      have hq2 : QUOTE ∉ cs := fun h => hq (List.mem_cons_of_mem _ h)
      rw [parseLoop_outside]
      by_cases h1 : c = COMMA
      · rw [if_pos h1, ih _ _ hq2]
        simp [List.splitOnP.go, h1]
      · rw [if_neg h1, if_neg h2, ih _ _ hq2]
        simp [List.splitOnP.go, h1]

theorem parseFields_splitOn (l : List Byte) (hq : QUOTE ∉ l) :
    parseFields l = .ok (l.splitOn COMMA) := by
  have h := parseLoop_splitOn l [] [] hq
  simpa [parseFields, List.splitOn, List.splitOnP] using h

/-- The only error the decoder loop returns is `ErrQuote`. -/
theorem parseLoop_error (n : Nat) : ∀ (l : List Byte), l.length ≤ n →
    ∀ (fields : List (List Byte)) (field : List Byte) (inQuotes : Bool) (e : Error),
    parseLoop l fields field inQuotes = .error e → e = .ErrQuote := by
  induction n with
  | zero =>
      intro l hl fields field inQuotes e h
      have : l = [] := List.length_eq_zero.mp (Nat.le_zero.mp hl)
      subst this
      cases inQuotes <;> simp [parseLoop_nil] at h
      exact h.symm
  | succ n ih =>
      intro l hl fields field inQuotes e h
      cases l with
      | nil =>
          cases inQuotes <;> simp [parseLoop_nil] at h
          exact h.symm
      | cons c rest =>
          have hrest : rest.length ≤ n := by simpa using hl
          cases inQuotes with
          | false =>
              rw [parseLoop_outside] at h
              split_ifs at h
              · exact ih rest hrest _ _ _ e h
              · exact ih rest hrest _ _ _ e h
              · simp at h
                exact h.symm
              · exact ih rest hrest _ _ _ e h
          | true =>
              by_cases h2 : c = QUOTE
              · subst h2
                cases rest with
                | nil =>
                    rw [parseLoop_inside_close _ _ _ (by simp)] at h
                    exact ih [] (by simp) _ _ _ e h
                | cons c2 rest2 =>
                    have hrest2 : rest2.length ≤ n := by
                      simp only [List.length_cons] at hrest
                      omega
                    by_cases h3 : c2 = QUOTE
                    · subst h3
                      rw [parseLoop_inside_escaped] at h
                      exact ih rest2 hrest2 _ _ _ e h
                    · rw [parseLoop_inside_close _ _ _ (by simpa using h3)] at h
                      exact ih (c2 :: rest2) hrest _ _ _ e h
              · rw [parseLoop_inside_other _ _ _ _ h2] at h
                exact ih rest hrest _ _ _ e h

theorem parseFields_error (l : List Byte) (e : Error) (h : parseFields l = .error e) :
    e = .ErrQuote :=
  parseLoop_error l.length l (Nat.le_refl _) [] [] false e h

/-- Induction along the steps of the decoder loop: end of input, comma, opening quote,
mid-field quote, other byte outside quotes, escaped quote, closing quote, other byte
inside quotes. -/
theorem parseLoop_induction {P : List Byte → List (List Byte) → List Byte → Bool → Prop}
    (hnil : ∀ fields field inQuotes, P [] fields field inQuotes)
    (hcomma : ∀ rest fields field,
      P rest (fields ++ [field]) [] false → P (COMMA :: rest) fields field false)
    (hopen : ∀ rest fields field, field.length = 0 →
      P rest fields field true → P (QUOTE :: rest) fields field false)
    (hmid : ∀ rest fields field, field.length ≠ 0 → P (QUOTE :: rest) fields field false)
    (hout : ∀ c rest fields field, c ≠ COMMA → c ≠ QUOTE →
      P rest fields (field ++ [c]) false → P (c :: rest) fields field false)
    (hesc : ∀ rest fields field,
      P rest fields (field ++ [QUOTE]) true → P (QUOTE :: QUOTE :: rest) fields field true)
    (hclose : ∀ rest fields field, rest.head? ≠ some QUOTE →
      P rest fields field false → P (QUOTE :: rest) fields field true)
    (hin : ∀ c rest fields field, c ≠ QUOTE →
      P rest fields (field ++ [c]) true → P (c :: rest) fields field true) :
    ∀ l fields field inQuotes, P l fields field inQuotes := by
  have key : ∀ (n : Nat) (l : List Byte), l.length ≤ n →
      ∀ fields field inQuotes, P l fields field inQuotes := by
    intro n
    induction n with
    | zero =>
        intro l hl fields field inQuotes
        have : l = [] := List.length_eq_zero.mp (Nat.le_zero.mp hl)
        subst this
        exact hnil _ _ _
    | succ n ih =>
        intro l hl fields field inQuotes
        cases l with
        | nil => exact hnil _ _ _
        | cons c rest =>
            have hrest : rest.length ≤ n := by simpa using hl
            cases inQuotes with
            | false =>
                by_cases h1 : c = COMMA
                · subst h1
                  exact hcomma _ _ _ (ih rest hrest _ _ _)
                · by_cases h2 : c = QUOTE
                  · subst h2
                    by_cases h3 : field.length = 0
                    · exact hopen _ _ _ h3 (ih rest hrest _ _ _)
                    · exact hmid _ _ _ h3
                  · exact hout _ _ _ _ h1 h2 (ih rest hrest _ _ _)
            | true =>
                by_cases h2 : c = QUOTE
                · subst h2
                  cases rest with
                  | nil => exact hclose _ _ _ (by simp) (hnil _ _ _)
                  | cons c2 rest2 =>
                      have hrest2 : rest2.length ≤ n := by
                        simp only [List.length_cons] at hrest
                        omega
                      by_cases h3 : c2 = QUOTE
                      · subst h3
                        exact hesc _ _ _ (ih rest2 hrest2 _ _ _)
                      · exact hclose _ _ _ (by simpa using h3) (ih (c2 :: rest2) hrest _ _ _)
                · exact hin _ _ _ _ h2 (ih rest hrest _ _ _)
  intro l
  exact key l.length l (Nat.le_refl _)

theorem parsePass_nil (fields : List (List Byte)) (field : List Byte) (inQuotes : Bool) :
    parsePass [] fields field inQuotes = .ok (fields, field, inQuotes) := by
  cases inQuotes <;> rfl

theorem parsePass_outside (c : Byte) (rest : List Byte) (fields : List (List Byte))
    (field : List Byte) :
    parsePass (c :: rest) fields field false
      = if c = COMMA then parsePass rest (fields ++ [field]) [] false
        else if c = QUOTE then
          if field.length = 0 then parsePass rest fields field true
          else .error .ErrQuote
        else parsePass rest fields (field ++ [c]) false := by
  rw [parsePass]

theorem parsePass_inside_other (c : Byte) (rest : List Byte) (fields : List (List Byte))
    (field : List Byte) (h : c ≠ QUOTE) :
    parsePass (c :: rest) fields field true = parsePass rest fields (field ++ [c]) true := by
  cases rest <;> simp [parsePass, h]

theorem parsePass_inside_escaped (rest : List Byte) (fields : List (List Byte))
    (field : List Byte) :
    parsePass (QUOTE :: QUOTE :: rest) fields field true
      = parsePass rest fields (field ++ [QUOTE]) true := by
  simp [parsePass]

theorem parsePass_inside_close (rest : List Byte) (fields : List (List Byte))
    (field : List Byte) (h : rest.head? ≠ some QUOTE) :
    parsePass (QUOTE :: rest) fields field true = parsePass rest fields field false := by
  cases rest with
  | nil => simp [parsePass]
  | cons c2 rest2 =>
      have h2 : c2 ≠ QUOTE := by simpa using h
      simp [parsePass, h2]

/-- The decoder is its loop followed by the code after the loop. -/
theorem parseLoop_eq_pass : ∀ (l : List Byte) (fields : List (List Byte))
    (field : List Byte) (inQuotes : Bool),
    parseLoop l fields field inQuotes
      = match parsePass l fields field inQuotes with
        | .error e => .error e
        | .ok st => afterPass st := by
  apply parseLoop_induction
  · intro fields field inQuotes
    rw [parseLoop_nil, parsePass_nil]
    rfl
  · intro rest fields field ih
    rw [parseLoop_outside, parsePass_outside, if_pos rfl, if_pos rfl, ih]
  · intro rest fields field h0 ih
    have hne : QUOTE ≠ COMMA := by decide
    rw [parseLoop_outside, parsePass_outside, if_neg hne, if_neg hne, if_pos rfl, if_pos rfl,
      if_pos h0, if_pos h0, ih]
  · intro rest fields field h0
    have hne : QUOTE ≠ COMMA := by decide
    rw [parseLoop_outside, parsePass_outside, if_neg hne, if_neg hne, if_pos rfl, if_pos rfl,
      if_neg h0, if_neg h0]
  · intro c rest fields field h1 h2 ih
    rw [parseLoop_outside, parsePass_outside, if_neg h1, if_neg h1, if_neg h2, if_neg h2, ih]
  · intro rest fields field ih
    rw [parseLoop_inside_escaped, parsePass_inside_escaped, ih]
  · intro rest fields field hr ih
    rw [parseLoop_inside_close _ _ _ hr, parsePass_inside_close _ _ _ hr, ih]
  · intro c rest fields field h2 ih
    rw [parseLoop_inside_other _ _ _ _ h2, parsePass_inside_other _ _ _ _ h2, ih]

/-- The loop keeps the parity of the quotes still to read plus the open-quote flag: it
is left inside quotes exactly when that number is odd. -/
theorem parsePass_parity : ∀ (l : List Byte) (fields : List (List Byte))
    (field : List Byte) (inQuotes : Bool) (st : List (List Byte) × List Byte × Bool),
    parsePass l fields field inQuotes = .ok st →
    (l.count QUOTE + (if inQuotes then 1 else 0)) % 2 = (if st.2.2 then 1 else 0) := by
  apply parseLoop_induction
  · intro fields field inQuotes st h
    rw [parsePass_nil] at h
    cases h
    cases inQuotes <;> simp
  · intro rest fields field ih st h
    rw [parsePass_outside, if_pos rfl] at h
    have hne : COMMA ≠ QUOTE := by decide
    have := ih st h
    simpa [List.count_cons, hne] using this
  · intro rest fields field h0 ih st h
    have hne : QUOTE ≠ COMMA := by decide
    rw [parsePass_outside, if_neg hne, if_pos rfl, if_pos h0] at h
    have := ih st h
    simpa [List.count_cons] using this
  · intro rest fields field h0 st h
    have hne : QUOTE ≠ COMMA := by decide
    rw [parsePass_outside, if_neg hne, if_pos rfl, if_neg h0] at h
    cases h
  · intro c rest fields field h1 h2 ih st h
    rw [parsePass_outside, if_neg h1, if_neg h2] at h
    have := ih st h
    simpa [List.count_cons, h2] using this
  · intro rest fields field ih st h
    rw [parsePass_inside_escaped] at h
    have := ih st h
    simp only [List.count_cons_self, if_true] at this ⊢
    omega
  · intro rest fields field hr ih st h
    rw [parsePass_inside_close _ _ _ hr] at h
    have := ih st h
    simp only [List.count_cons_self, if_true, Bool.false_eq_true, if_false] at this ⊢
    omega
  · intro c rest fields field h2 ih st h
    rw [parsePass_inside_other _ _ _ _ h2] at h
    have := ih st h
    simpa [List.count_cons, h2] using this

/-- The only error the loop returns is `ErrQuote`. -/
theorem parsePass_error : ∀ (l : List Byte) (fields : List (List Byte))
    (field : List Byte) (inQuotes : Bool) (e : Error),
    parsePass l fields field inQuotes = .error e → e = .ErrQuote := by
  apply parseLoop_induction
  · intro fields field inQuotes e h
    rw [parsePass_nil] at h
    cases h
  · intro rest fields field ih e h
    rw [parsePass_outside, if_pos rfl] at h
    exact ih e h
  · intro rest fields field h0 ih e h
    have hne : QUOTE ≠ COMMA := by decide
    rw [parsePass_outside, if_neg hne, if_pos rfl, if_pos h0] at h
    exact ih e h
  · intro rest fields field h0 e h
    have hne : QUOTE ≠ COMMA := by decide
    rw [parsePass_outside, if_neg hne, if_pos rfl, if_neg h0] at h
    cases h
    rfl
  · intro c rest fields field h1 h2 ih e h
    rw [parsePass_outside, if_neg h1, if_neg h2] at h
    exact ih e h
  · intro rest fields field ih e h
    rw [parsePass_inside_escaped] at h
    exact ih e h
  · intro rest fields field hr ih e h
    rw [parsePass_inside_close _ _ _ hr] at h
    exact ih e h
  · intro c rest fields field h2 ih e h
    rw [parsePass_inside_other _ _ _ _ h2] at h
    exact ih e h

/-- On a record without quotes the loop succeeds with one field more than there are
commas. -/
theorem parseLoop_count (l : List Byte) (fields : List (List Byte)) (field : List Byte)
    (hq : QUOTE ∉ l) :
    ∃ fs, parseLoop l fields field false = .ok fs
      ∧ fs.length = fields.length + 1 + l.count COMMA := by
  induction l generalizing fields field with
  | nil => exact ⟨fields ++ [field], by simp [parseLoop_nil], by simp⟩
  | cons c cs ih =>
      have h2 : c ≠ QUOTE := fun h => hq (by simp [h])
      have hq2 : QUOTE ∉ cs := fun h => hq (List.mem_cons_of_mem _ h)
      rw [parseLoop_outside]
      by_cases h1 : c = COMMA
      · obtain ⟨fs, h3, h4⟩ := ih (fields ++ [field]) [] hq2
        refine ⟨fs, by rw [if_pos h1, h3], ?_⟩
        rw [h4, h1]
        simp only [List.length_append, List.length_singleton, List.count_cons_self]
        omega
      · obtain ⟨fs, h3, h4⟩ := ih fields (field ++ [c]) hq2
        refine ⟨fs, by rw [if_neg h1, if_neg h2, h3], ?_⟩
        rw [h4]
        simp [List.count_cons, h1]

/-- A comma put after a record that decodes adds one empty field. -/
theorem parseLoop_trailing_comma : ∀ (l : List Byte) (fields : List (List Byte))
    (field : List Byte) (inQuotes : Bool) (fs : List (List Byte)),
    parseLoop l fields field inQuotes = .ok fs →
    parseLoop (l ++ [COMMA]) fields field inQuotes = .ok (fs ++ [[]]) := by
  apply parseLoop_induction
  · intro fields field inQuotes fs h
    cases inQuotes with
    | true => simp [parseLoop_nil] at h
    | false =>
        simp only [parseLoop_nil, Bool.false_eq_true, if_false, Except.ok.injEq] at h
        subst h
        rw [List.nil_append, parseLoop_outside, if_pos rfl, parseLoop_nil]
        simp
  · intro rest fields field ih fs h
    rw [parseLoop_outside, if_pos rfl] at h
    rw [List.cons_append, parseLoop_outside, if_pos rfl]
    exact ih fs h
  · intro rest fields field h0 ih fs h
    have hne : QUOTE ≠ COMMA := by decide
    rw [parseLoop_outside, if_neg hne, if_pos rfl, if_pos h0] at h
    rw [List.cons_append, parseLoop_outside, if_neg hne, if_pos rfl, if_pos h0]
    exact ih fs h
  · intro rest fields field h0 fs h
    have hne : QUOTE ≠ COMMA := by decide
    rw [parseLoop_outside, if_neg hne, if_pos rfl, if_neg h0] at h
    cases h
  · intro c rest fields field h1 h2 ih fs h
    rw [parseLoop_outside, if_neg h1, if_neg h2] at h
    rw [List.cons_append, parseLoop_outside, if_neg h1, if_neg h2]
    exact ih fs h
  · intro rest fields field ih fs h
    rw [parseLoop_inside_escaped] at h
    rw [List.cons_append, List.cons_append, parseLoop_inside_escaped]
    exact ih fs h
  · intro rest fields field hr ih fs h
    rw [parseLoop_inside_close _ _ _ hr] at h
    have hr2 : (rest ++ [COMMA]).head? ≠ some QUOTE := by
      cases rest with
      | nil => simp [COMMA, QUOTE]
      | cons d ds => simpa using hr
    rw [List.cons_append, parseLoop_inside_close _ _ _ hr2]
    exact ih fs h
  · intro c rest fields field h2 ih fs h
    rw [parseLoop_inside_other _ _ _ _ h2] at h
    rw [List.cons_append, parseLoop_inside_other _ _ _ _ h2]
    exact ih fs h

/-- A record that decodes has at least one field more than were already found. -/
theorem parseLoop_length : ∀ (l : List Byte) (fields : List (List Byte))
    (field : List Byte) (inQuotes : Bool) (fs : List (List Byte)),
    parseLoop l fields field inQuotes = .ok fs → fields.length + 1 ≤ fs.length := by
  apply parseLoop_induction
  · intro fields field inQuotes fs h
    cases inQuotes with
    | true => simp [parseLoop_nil] at h
    | false =>
        simp only [parseLoop_nil, Bool.false_eq_true, if_false, Except.ok.injEq] at h
        subst h
        simp
  · intro rest fields field ih fs h
    rw [parseLoop_outside, if_pos rfl] at h
    have := ih fs h
    simp only [List.length_append, List.length_singleton] at this
    omega
  · intro rest fields field h0 ih fs h
    have hne : QUOTE ≠ COMMA := by decide
    rw [parseLoop_outside, if_neg hne, if_pos rfl, if_pos h0] at h
    exact ih fs h
  · intro rest fields field h0 fs h
    have hne : QUOTE ≠ COMMA := by decide
    rw [parseLoop_outside, if_neg hne, if_pos rfl, if_neg h0] at h
    cases h
  · intro c rest fields field h1 h2 ih fs h
    rw [parseLoop_outside, if_neg h1, if_neg h2] at h
    exact ih fs h
  · intro rest fields field ih fs h
    rw [parseLoop_inside_escaped] at h
    exact ih fs h
  · intro rest fields field hr ih fs h
    rw [parseLoop_inside_close _ _ _ hr] at h
    exact ih fs h
  · intro c rest fields field h2 ih fs h
    rw [parseLoop_inside_other _ _ _ _ h2] at h
    exact ih fs h

/-! Lemmas on readLoop -/

theorem readLoop_nil (buffer : List Byte) (inQuotes : Bool) :
    readLoop [] buffer inQuotes = ⟨buffer, atEOF buffer inQuotes, []⟩ := rfl

/-- One iteration on a read that delivers the byte `c` with a nil error. -/
theorem readLoop_byte (c : Byte) (rs : Source) (buffer : List Byte) (inQuotes : Bool) :
    readLoop (⟨some c, none⟩ :: rs) buffer inQuotes
      = if c = CR then readLoop rs buffer inQuotes
        else if c = LF ∧ (if c = QUOTE then !inQuotes else inQuotes) = false then
          ⟨buffer, .brk, rs⟩
        else readLoop rs (buffer ++ [c]) (if c = QUOTE then !inQuotes else inQuotes) := by
  rw [readLoop]
  simp only [iteration, errCheck]
  split_ifs <;> rfl

theorem ofBytes_cons (c : Byte) (cs : List Byte) :
    ofBytes (c :: cs) = ⟨some c, none⟩ :: ofBytes cs := rfl

theorem ofBytes_append (a b : List Byte) : ofBytes (a ++ b) = ofBytes a ++ ofBytes b := by
  simp [ofBytes]

theorem ofBytes_nil : ofBytes [] = [] := rfl

/-- A run of bytes free of carriage-returns and quotes, and free of line-feeds when the
loop is outside quotes, is stored whole and leaves the quote state as it was. -/
theorem readLoop_plain (r : List Byte) (src : Source) (buffer : List Byte)
    (inQuotes : Bool) (hcr : CR ∉ r) (hq : QUOTE ∉ r) (hlf : inQuotes = false → LF ∉ r) :
    readLoop (ofBytes r ++ src) buffer inQuotes = readLoop src (buffer ++ r) inQuotes := by
  induction r generalizing buffer with
  | nil => simp [ofBytes_nil]
  | cons c cs ih =>
      have h1 : c ≠ CR := fun h => hcr (by simp [h])
      have h2 : c ≠ QUOTE := fun h => hq (by simp [h])
      have h3 : ¬ (c = LF ∧ inQuotes = false) := fun h => hlf h.2 (by simp [h.1])
      have hcr2 : CR ∉ cs := fun h => hcr (List.mem_cons_of_mem _ h)
      have hq2 : QUOTE ∉ cs := fun h => hq (List.mem_cons_of_mem _ h)
      have hlf2 : inQuotes = false → LF ∉ cs := fun hi h => hlf hi (List.mem_cons_of_mem _ h)
      rw [ofBytes_cons, List.cons_append, readLoop_byte, if_neg h1, if_neg h2, if_neg h3,
        ih _ hcr2 hq2 hlf2]
      simp

/-- Inside quotes, an escaped field free of carriage-returns is stored whole and the loop
is still inside quotes after it. -/
theorem readLoop_escape (f : List Byte) (src : Source) (buffer : List Byte)
    (hcr : CR ∉ f) :
    readLoop (ofBytes (escape f) ++ src) buffer true
      = readLoop src (buffer ++ escape f) true := by
  induction f generalizing buffer with
  | nil => simp [escape, ofBytes_nil]
  | cons c cs ih =>
      have h1 : c ≠ CR := fun h => hcr (by simp [h])
      have hcr2 : CR ∉ cs := fun h => hcr (List.mem_cons_of_mem _ h)
      have hqcr : QUOTE ≠ CR := by decide
      have hqlf : QUOTE ≠ LF := by decide
      by_cases h2 : c = QUOTE
      · subst h2
        rw [escape, if_pos rfl, ofBytes_cons, ofBytes_cons, List.cons_append,
          List.cons_append, readLoop_byte, if_neg hqcr, if_neg (fun h => hqlf h.1),
          if_pos rfl, readLoop_byte, if_neg hqcr, if_neg (fun h => hqlf h.1), if_pos rfl]
        simp only [Bool.not_true, Bool.not_false]
        rw [ih _ hcr2]
        simp
      · rw [escape, if_neg h2, ofBytes_cons, List.cons_append, readLoop_byte, if_neg h1,
          if_neg h2, if_neg (fun h => by simp at h), ih _ hcr2]
        simp

/-- Outside quotes, a quoted field free of carriage-returns is stored whole and the loop
is outside quotes again after it. -/
theorem readLoop_quoted (f : List Byte) (src : Source) (buffer : List Byte)
    (hcr : CR ∉ f) :
    readLoop (ofBytes (quoted f) ++ src) buffer false
      = readLoop src (buffer ++ quoted f) false := by
  have hqcr : QUOTE ≠ CR := by decide
  have hqlf : QUOTE ≠ LF := by decide
  rw [quoted, ofBytes_cons, List.cons_append, readLoop_byte, if_neg hqcr,
    if_neg (fun h => hqlf h.1), if_pos rfl, ofBytes_append, List.append_assoc,
    Bool.not_false, readLoop_escape _ _ _ hcr, ofBytes_cons, List.cons_append,
    readLoop_byte, if_neg hqcr, if_neg (fun h => hqlf h.1), if_pos rfl]
  simp [ofBytes_nil]

/-- Outside quotes, a record of quoted fields is stored whole. -/
theorem readLoop_joinQuoted (fs : List (List Byte)) (src : Source) (buffer : List Byte)
    (hne : fs ≠ []) (hcr : ∀ f ∈ fs, CR ∉ f) :
    readLoop (ofBytes (joinComma (fs.map quoted)) ++ src) buffer false
      = readLoop src (buffer ++ joinComma (fs.map quoted)) false := by
  induction fs generalizing buffer with
  | nil => exact absurd rfl hne
  | cons f fs ih =>
      cases fs with
      | nil =>
          simp only [List.map_cons, List.map_nil, joinComma_single]
          exact readLoop_quoted f src buffer (hcr f (by simp))
      | cons g gs =>
          have hccr : COMMA ≠ CR := by decide
          have hcq : COMMA ≠ QUOTE := by decide
          have hclf : COMMA ≠ LF := by decide
          simp only [List.map_cons, joinComma_cons_cons]
          rw [ofBytes_append, List.append_assoc, readLoop_quoted _ _ _ (hcr f (by simp)),
            ofBytes_cons, List.cons_append, readLoop_byte, if_neg hccr, if_neg hcq,
            if_neg (fun h => hclf h.1)]
          have ih2 := ih (buffer ++ quoted f ++ [COMMA]) (by simp)
            (fun u hu => hcr u (List.mem_cons_of_mem _ hu))
          simp only [List.map_cons] at ih2
          rw [ih2]
          simp

/-- Outside quotes a line-feed ends the record and is not stored. -/
theorem readLoop_LF (rs : Source) (buffer : List Byte) :
    readLoop (⟨some LF, none⟩ :: rs) buffer false = ⟨buffer, .brk, rs⟩ := by
  have h1 : LF ≠ CR := by decide
  have h2 : LF ≠ QUOTE := by decide
  rw [readLoop_byte, if_neg h1, if_neg h2, if_pos ⟨rfl, rfl⟩]

/-- A carriage-return delivered with a nil error is skipped. -/
theorem readLoop_CR (rs : Source) (buffer : List Byte) (inQuotes : Bool) :
    readLoop (⟨some CR, none⟩ :: rs) buffer inQuotes = readLoop rs buffer inQuotes := by
  rw [readLoop_byte, if_pos rfl]

/-- The reset at the head of `ReadLine` leaves an empty buffer and no fields, whatever
the parser held. -/
theorem ReadLine_eq (p : parser) (r : Source) :
    ReadLine p r =
      match (readLoop r [] false).exit with
      | .ret e => ⟨[], some e, ⟨(readLoop r [] false).buffer, []⟩, (readLoop r [] false).rest⟩
      | .brk =>
          match parseFields (readLoop r [] false).buffer with
          | .error e =>
              ⟨[], some e, ⟨(readLoop r [] false).buffer, []⟩, (readLoop r [] false).rest⟩
          | .ok fields =>
              ⟨(readLoop r [] false).buffer, none, ⟨(readLoop r [] false).buffer, fields⟩,
                (readLoop r [] false).rest⟩ := rfl

/-- `ReadLine` when the loop is left by `break` and the decoder succeeds. -/
theorem ReadLine_record (p : parser) (r rest : Source) (buffer : List Byte)
    (fields : List (List Byte)) (h : readLoop r [] false = ⟨buffer, .brk, rest⟩)
    (hp : parseFields buffer = .ok fields) :
    ReadLine p r = ⟨buffer, none, ⟨buffer, fields⟩, rest⟩ := by
  simp [ReadLine_eq, h, hp]

/-- `ReadLine` when the loop is left by a `return`. -/
theorem ReadLine_ret (p : parser) (r rest : Source) (buffer : List Byte) (e : Error)
    (h : readLoop r [] false = ⟨buffer, .ret e, rest⟩) :
    ReadLine p r = ⟨[], some e, ⟨buffer, []⟩, rest⟩ := by
  simp [ReadLine_eq, h]

/-- The accessors on a parser that holds the field list `fs`. -/
theorem GetField_natCast (p : parser) (i : Nat) (h : i < p.fields.length) :
    GetField p (i : Int) = (p.fields[i], none) := by
  have h1 : ¬ ((i : Int) < 0 ∨ (i : Int) ≥ (p.fields.length : Int)) := by omega
  simp only [GetField, if_neg h1, Int.toNat_ofNat]
  rw [List.getD_eq_getElem _ _ h]

/-- Decoding a record of quoted fields gives back the fields. -/
theorem parseFields_joinQuoted (fs : List (List Byte)) (hne : fs ≠ []) :
    parseFields (joinComma (fs.map quoted)) = .ok fs := by
  have h := parseLoop_joinComma (fs.map (fun f => (f, true))) [] (by simpa using hne)
    (by
      intro w hw hb
      obtain ⟨f, _, rfl⟩ := List.mem_map.mp hw
      simp at hb)
  have e1 : (fs.map (fun f => (f, true))).map writeField = fs.map quoted := by
    simp [List.map_map, Function.comp_def, writeField]
  have e2 : (fs.map (fun f => (f, true))).map Prod.fst = fs := by
    simp [List.map_map, Function.comp_def]
  rw [e1, e2] at h
  simpa [parseFields] using h

/-- One call of `ReadLine` on a quote-free record followed by its terminator. -/
theorem ReadLine_terminated (p : parser) (r : List Byte) (crlf : Bool) (rest : List Byte)
    (hq : QUOTE ∉ r) (hcr : CR ∉ r) (hlf : LF ∉ r) :
    ReadLine p (ofBytes (r ++ terminator crlf ++ rest))
      = ⟨r, none, ⟨r, r.splitOn COMMA⟩, ofBytes rest⟩ := by
  apply ReadLine_record _ _ _ _ _ _ (parseFields_splitOn r hq)
  rw [List.append_assoc, ofBytes_append, readLoop_plain _ _ _ _ hcr hq (fun _ => hlf)]
  cases crlf with
  | false =>
      simp only [terminator, Bool.false_eq_true, if_false, List.cons_append, List.nil_append,
        ofBytes_cons]
      exact readLoop_LF _ _
  | true =>
      simp only [terminator, if_true, List.cons_append, List.nil_append, ofBytes_cons]
      rw [readLoop_CR]
      exact readLoop_LF _ _

/-- One call of `ReadLine` on a non-empty quote-free record that ends the stream. -/
theorem ReadLine_last (p : parser) (r : List Byte) (hne : r ≠ [])
    (hq : QUOTE ∉ r) (hcr : CR ∉ r) (hlf : LF ∉ r) :
    ReadLine p (ofBytes r) = ⟨r, none, ⟨r, r.splitOn COMMA⟩, []⟩ := by
  apply ReadLine_record _ _ _ _ _ _ (parseFields_splitOn r hq)
  have h := readLoop_plain r [] [] false hcr hq (fun _ => hlf)
  simp only [List.append_nil, List.nil_append] at h
  have hl : r.length ≠ 0 := by simpa using hne
  rw [h, readLoop_nil]
  simp [atEOF, hl]

/-- One call of `ReadLine` on an exhausted stream. -/
theorem ReadLine_exhausted (p : parser) :
    ReadLine p [] = ⟨[], some .EOF, ⟨[], []⟩, []⟩ := by
  apply ReadLine_ret
  rfl

/-- A stream in which every line-feed comes after an odd number of quotes (counting an
already open quote) and whose quotes are odd in number is read to its end, and the loop
returns `ErrQuote`. -/
theorem readLoop_unterminated (s : List Byte) (buffer : List Byte) (inQuotes : Bool)
    (hlf : ∀ pre post, s = pre ++ LF :: post →
      (pre.count QUOTE + (if inQuotes then 1 else 0)) % 2 = 1)
    (hodd : (s.count QUOTE + (if inQuotes then 1 else 0)) % 2 = 1) :
    readLoop (ofBytes s) buffer inQuotes = ⟨buffer ++ stripCR s, .ret .ErrQuote, []⟩ := by
  induction s generalizing buffer inQuotes with
  | nil =>
      cases inQuotes with
      | false => simp at hodd
      | true => simp [ofBytes_nil, readLoop_nil, atEOF, stripCR]
  | cons c cs ih =>
      rw [ofBytes_cons, readLoop_byte]
      by_cases h1 : c = CR
      · have hq : c ≠ QUOTE := by rw [h1]; decide
        rw [if_pos h1, ih buffer inQuotes]
        · simp [stripCR, h1]
        · intro pre post hs
          have := hlf (c :: pre) post (by simp [hs])
          simpa [List.count_cons, hq] using this
        · simpa [List.count_cons, hq] using hodd
      · rw [if_neg h1]
        by_cases h2 : c = QUOTE
        · have hqlf : c ≠ LF := by rw [h2]; decide
          rw [if_neg (fun h => hqlf h.1), if_pos h2, ih (buffer ++ [c]) (!inQuotes)]
          · simp [stripCR, h1]
          · intro pre post hs
            have := hlf (c :: pre) post (by simp [hs])
            simp only [List.count_cons, h2, beq_self_eq_true, if_true] at this
            cases inQuotes <;> simp at this ⊢ <;> omega
          · simp only [List.count_cons, h2, beq_self_eq_true, if_true] at hodd
            cases inQuotes <;> simp at hodd ⊢ <;> omega
        · have hin : inQuotes = true ∨ c ≠ LF := by
            by_cases h3 : c = LF
            · left
              have := hlf [] cs (by simp [h3])
              cases inQuotes with
              | false => simp at this
              | true => rfl
            · exact Or.inr h3
          have hnb : ¬ (c = LF ∧ (if c = QUOTE then !inQuotes else inQuotes) = false) := by
            rw [if_neg h2]
            rintro ⟨h3, h4⟩
            rcases hin with h5 | h5
            · rw [h5] at h4
              exact Bool.noConfusion h4
            · exact h5 h3
          rw [if_neg hnb, if_neg h2, ih (buffer ++ [c]) inQuotes]
          · simp [stripCR, h1]
          · intro pre post hs
            have := hlf (c :: pre) post (by simp [hs])
            simpa [List.count_cons, h2] using this
          · simpa [List.count_cons, h2] using hodd

/-- With bytes already stored the loop never returns `io.EOF`. -/
theorem readLoop_nonempty (s : List Byte) (buffer : List Byte) (inQuotes : Bool)
    (hne : buffer ≠ []) :
    (readLoop (ofBytes s) buffer inQuotes).exit ≠ .ret .EOF := by
  induction s generalizing buffer inQuotes with
  | nil =>
      have hl : buffer.length ≠ 0 := by simpa using hne
      cases inQuotes <;> simp [ofBytes_nil, readLoop_nil, atEOF, hl]
  | cons c cs ih =>
      rw [ofBytes_cons, readLoop_byte]
      split_ifs
      · exact ih _ _ hne
      · simp
      · exact ih _ _ (by simp)
      · simp
      · exact ih _ _ (by simp)

/-- From the start of a call, the loop returns `io.EOF` exactly on a stream of
carriage-returns. -/
theorem readLoop_EOF_iff (s : List Byte) :
    (readLoop (ofBytes s) [] false).exit = .ret .EOF ↔ ∀ b ∈ s, b = CR := by
  induction s with
  | nil => simp [ofBytes_nil, readLoop_nil, atEOF]
  | cons c cs ih =>
      rw [ofBytes_cons, readLoop_byte]
      by_cases h1 : c = CR
      · rw [if_pos h1, ih]
        simp [h1]
      · rw [if_neg h1]
        have hr : ¬ ∀ b ∈ c :: cs, b = CR := fun h => h1 (h c (by simp))
        refine iff_of_false ?_ hr
        split_ifs
        · simp
        · exact readLoop_nonempty cs _ _ (by simp)
        · simp
        · exact readLoop_nonempty cs _ _ (by simp)

/-- `ReadLine` returns `io.EOF` exactly when its loop does, and then the text is empty. -/
theorem ReadLine_err_EOF (p : parser) (r : Source) :
    ((ReadLine p r).err = some .EOF ∧ (ReadLine p r).text = [])
      ↔ (readLoop r [] false).exit = .ret .EOF := by
  simp only [ReadLine_eq]
  cases hx : (readLoop r [] false).exit with
  | brk =>
      cases hp : parseFields (readLoop r [] false).buffer with
      | error e =>
          have := parseFields_error _ _ hp
          subst this
          simp
      | ok fields => simp
  | ret e => simp

/-- Deleting the carriage-returns of a stream changes neither the buffer nor the way the
loop is left, and the unread bytes differ by carriage-returns only. -/
theorem readLoop_stripCR (s : List Byte) (buffer : List Byte) (inQuotes : Bool) :
    (readLoop (ofBytes (stripCR s)) buffer inQuotes).buffer
        = (readLoop (ofBytes s) buffer inQuotes).buffer
      ∧ (readLoop (ofBytes (stripCR s)) buffer inQuotes).exit
        = (readLoop (ofBytes s) buffer inQuotes).exit
      ∧ ∃ r, (readLoop (ofBytes s) buffer inQuotes).rest = ofBytes r
        ∧ (readLoop (ofBytes (stripCR s)) buffer inQuotes).rest = ofBytes (stripCR r) := by
  induction s generalizing buffer inQuotes with
  | nil => exact ⟨rfl, rfl, [], rfl, rfl⟩
  | cons c cs ih =>
      by_cases h1 : c = CR
      · have e1 : stripCR (c :: cs) = stripCR cs := by simp [stripCR, h1]
        rw [e1, ofBytes_cons, readLoop_byte, if_pos h1]
        exact ih buffer inQuotes
      · have e1 : stripCR (c :: cs) = c :: stripCR cs := by simp [stripCR, h1]
        rw [e1, ofBytes_cons, ofBytes_cons, readLoop_byte, readLoop_byte, if_neg h1]
        split_ifs
        · exact ⟨rfl, rfl, cs, rfl, rfl⟩
        · exact ih _ _
        · exact ⟨rfl, rfl, cs, rfl, rfl⟩
        · exact ih _ _

/-- A read that returns a fault other than `io.EOF` and delivers no byte, or a byte that
is neither a carriage-return nor a line-feed met outside quotes, makes the loop return
that fault. -/
theorem iteration_fault (r : ReadResult) (buffer : List Byte) (inQuotes : Bool) (e : Error)
    (he : r.err = some e) (hne : e ≠ .EOF)
    (hb : ∀ c, r.byte = some c → c ≠ CR ∧ (c = LF → inQuotes = true)) :
    ∃ b, iteration r buffer inQuotes = .stop b (.ret e) := by
  obtain ⟨byte, err⟩ := r
  simp only at he hb
  subst he
  cases byte with
  | none =>
      refine ⟨buffer, ?_⟩
      cases e <;> simp [iteration, errCheck] at hne ⊢
  | some c =>
      obtain ⟨h1, h2⟩ := hb c rfl
      refine ⟨buffer ++ [c], ?_⟩
      have h3 : ¬ (c = LF ∧ (if c = QUOTE then !inQuotes else inQuotes) = false) := by
        rintro ⟨h4, h5⟩
        have h6 : c ≠ QUOTE := by rw [h4]; decide
        rw [if_neg h6, h2 h4] at h5
        exact Bool.noConfusion h5
      simp only [iteration, if_neg h1, if_neg h3]
      cases e <;> simp [errCheck] at hne ⊢

theorem scanInv_nil : scanInv [] false := by
  refine ⟨by simp, by simp, ?_⟩
  intro pre post h
  cases pre <;> simp at h

/-- Storing a byte that is no carriage-return, and no line-feed met outside quotes, keeps
the invariant. -/
theorem scanInv_push (buffer : List Byte) (inQuotes : Bool) (c : Byte)
    (hinv : scanInv buffer inQuotes) (h1 : c ≠ CR)
    (h3 : ¬ (c = LF ∧ (if c = QUOTE then !inQuotes else inQuotes) = false)) :
    scanInv (buffer ++ [c]) (if c = QUOTE then !inQuotes else inQuotes) := by
  obtain ⟨hcr, hpar, hlf⟩ := hinv
  refine ⟨?_, ?_, ?_⟩
  · intro h
    rcases List.mem_append.mp h with h | h
    · exact hcr h
    · have hc : CR = c := by simpa using h
      exact h1 hc.symm
  · by_cases h2 : c = QUOTE
    · subst h2
      simp only [List.count_append, List.count_cons_self, List.count_nil, if_true]
      cases inQuotes <;> simp at hpar ⊢ <;> omega
    · simpa [List.count_append, List.count_cons, h2] using hpar
  · intro pre post h
    rcases List.eq_nil_or_concat post with hp | ⟨post2, d, hp⟩
    · subst hp
      obtain ⟨hb, hc⟩ := List.append_inj' h (by simp)
      have hc2 : c = LF := by simpa using hc
      have h2 : c ≠ QUOTE := by rw [hc2]; decide
      rw [if_neg h2] at h3
      have hq : inQuotes = true := by
        cases inQuotes with
        | true => rfl
        | false => exact absurd ⟨hc2, rfl⟩ h3
      rw [hq] at hpar
      rw [← hb]
      simpa using hpar
    · subst hp
      have h4 : buffer ++ [c] = (pre ++ LF :: post2) ++ [d] := by
        rw [h]
        simp
      obtain ⟨hb, _⟩ := List.append_inj' h4 (by simp)
      exact hlf pre post2 hb

/-- One iteration keeps the invariant; when it leaves the loop by `break` the loop is
outside quotes. -/
theorem iteration_inv (r : ReadResult) (buffer : List Byte) (inQuotes : Bool)
    (hinv : scanInv buffer inQuotes) :
    (∀ b q, iteration r buffer inQuotes = .next b q → scanInv b q)
      ∧ (∀ b e, iteration r buffer inQuotes = .stop b e →
          ∃ q, scanInv b q ∧ (e = .brk → q = false)) := by
  have hcheck : ∀ (err : Option Error) (b0 : List Byte) (q0 : Bool), scanInv b0 q0 →
      (∀ b q, errCheck err b0 q0 = .next b q → scanInv b q)
        ∧ (∀ b e, errCheck err b0 q0 = .stop b e →
            ∃ q, scanInv b q ∧ (e = .brk → q = false)) := by
    intro err b0 q0 h0
    cases err with
    | none =>
        constructor
        · intro b q h
          simp only [errCheck, Step.next.injEq] at h
          rw [← h.1, ← h.2]
          exact h0
        · intro b e h
          simp [errCheck] at h
    | some e0 =>
        constructor
        · intro b q h
          cases e0 <;> simp [errCheck] at h
        · intro b e h
          refine ⟨q0, ?_, ?_⟩
          · cases e0 <;> simp only [errCheck, Step.stop.injEq] at h <;> rw [← h.1] <;> exact h0
          · intro he
            subst he
            cases e0 <;> simp only [errCheck, Step.stop.injEq] at h
            · have h2 := h.2
              cases q0 with
              | false => rfl
              | true => simp [atEOF] at h2
            · exact absurd h.2 (by simp)
            · exact absurd h.2 (by simp)
            · exact absurd h.2 (by simp)
  obtain ⟨byte, err⟩ := r
  cases byte with
  | none => exact hcheck err buffer inQuotes hinv
  | some c =>
      by_cases h1 : c = CR
      · constructor
        · intro b q h
          simp only [iteration, if_pos h1, Step.next.injEq] at h
          rw [← h.1, ← h.2]
          exact hinv
        · intro b e h
          simp [iteration, h1] at h
      · by_cases h3 : c = LF ∧ (if c = QUOTE then !inQuotes else inQuotes) = false
        · constructor
          · intro b q h
            simp only [iteration, if_neg h1, if_pos h3] at h
            cases h
          · intro b e h
            simp only [iteration, if_neg h1, if_pos h3, Step.stop.injEq] at h
            have h2 : c ≠ QUOTE := by rw [h3.1]; decide
            have hq := h3.2
            rw [if_neg h2] at hq
            refine ⟨inQuotes, ?_, fun _ => hq⟩
            rw [← h.1]
            exact hinv
        · have := hcheck err _ _ (scanInv_push buffer inQuotes c hinv h1 h3)
          simpa only [iteration, if_neg h1, if_neg h3] using this

/-- The loop of `ReadLine` keeps the invariant; when it is left by `break` the loop is
outside quotes. -/
theorem readLoop_inv (r : Source) (buffer : List Byte) (inQuotes : Bool)
    (hinv : scanInv buffer inQuotes) :
    ∃ q, scanInv (readLoop r buffer inQuotes).buffer q
      ∧ ((readLoop r buffer inQuotes).exit = .brk → q = false) := by
  induction r generalizing buffer inQuotes with
  | nil =>
      refine ⟨inQuotes, hinv, ?_⟩
      intro h
      cases inQuotes with
      | false => rfl
      | true => simp [readLoop, atEOF] at h
  | cons x xs ih =>
      obtain ⟨hn, hs⟩ := iteration_inv x buffer inQuotes hinv
      rw [readLoop]
      cases hx : iteration x buffer inQuotes with
      | next b q => exact ih b q (hn b q hx)
      | stop b e => exact hs b e hx

/-- What the loop hands on when it is left by `break`: no carriage-return, an even
number of double-quotes, and every line-feed after an odd number of double-quotes. -/
theorem readLoop_brk_shape (r : Source)
    (h : (readLoop r [] false).exit = .brk) :
    CR ∉ (readLoop r [] false).buffer
      ∧ (readLoop r [] false).buffer.count QUOTE % 2 = 0
      ∧ ∀ pre post, (readLoop r [] false).buffer = pre ++ LF :: post →
          pre.count QUOTE % 2 = 1 := by
  obtain ⟨q, ⟨hcr, hpar, hlf⟩, hq⟩ := readLoop_inv r [] false scanInv_nil
  rw [hq h] at hpar
  exact ⟨hcr, by simpa using hpar, hlf⟩

/-- A call of `ReadLine` that returns no error left its loop by `break` and returns the
buffer, decoded by `parseFields` into the fields it holds. -/
theorem ReadLine_ok (p : parser) (r : Source) (h : (ReadLine p r).err = none) :
    (readLoop r [] false).exit = .brk
      ∧ (ReadLine p r).text = (readLoop r [] false).buffer
      ∧ parseFields (ReadLine p r).text = .ok (ReadLine p r).p.fields := by
  rw [ReadLine_eq] at h ⊢
  cases hx : (readLoop r [] false).exit with
  | ret e => simp [hx] at h
  | brk =>
      cases hp : parseFields (readLoop r [] false).buffer with
      | error e => simp [hx, hp] at h
      | ok fields => simp [hp]

/-- A call of `ReadLine` that returns an error leaves no fields. -/
theorem ReadLine_err_fields (p : parser) (r : Source) (h : (ReadLine p r).err ≠ none) :
    (ReadLine p r).p.fields = [] := by
  rw [ReadLine_eq] at h ⊢
  cases hx : (readLoop r [] false).exit with
  | ret e => rfl
  | brk =>
      cases hp : parseFields (readLoop r [] false).buffer with
      | error e => rfl
      | ok fields => simp [hx, hp] at h

/-- A quoted field followed by bytes free of commas and quotes decodes to one field. -/
theorem parseLoop_quoted_then_bare (f g rest : List Byte) (fields : List (List Byte))
    (hc : COMMA ∉ g) (hq : QUOTE ∉ g) (hr : g = [] → rest.head? ≠ some QUOTE) :
    parseLoop (quoted f ++ g ++ rest) fields [] false
      = parseLoop rest fields (f ++ g) false := by
  have hne : QUOTE ≠ COMMA := by decide
  have hhead : (g ++ rest).head? ≠ some QUOTE := by
    cases g with
    | nil => simpa using hr rfl
    | cons d ds =>
        have : d ≠ QUOTE := fun h => hq (by simp [h])
        simpa using this
  have h1 := parseLoop_escape f (g ++ rest) fields [] hhead
  have h2 := parseLoop_bare g rest fields f hc hq
  simp only [List.nil_append] at h1
  simp only [quoted, List.cons_append, List.append_assoc, List.singleton_append]
  rw [parseLoop_outside, if_neg hne, if_pos rfl, if_pos (by simp), List.nil_append, h1, h2]

/-! The claims -/

/-- C1 (quoting round trip): for a non-empty list of fields, each written bare (allowed
only when it holds no comma and no double-quote) or enclosed in double-quotes with inner
double-quotes doubled, `parseFields` on the comma-joined record returns exactly the
fields, in order, with no error. -/
theorem parseFields_quoting_round_trip (ws : List (List Byte × Bool)) (hne : ws ≠ [])
    (hbare : ∀ w ∈ ws, w.2 = false → COMMA ∉ w.1 ∧ QUOTE ∉ w.1) :
    parseFields (joinComma (ws.map writeField)) = .ok (ws.map Prod.fst) := by
  have h := parseLoop_joinComma ws [] hne hbare
  simpa [parseFields] using h

/-- Witness for C1: the record `a,"b""c",d` is the written form of `a`, `b"c`, `d` and
decodes to them; the record `""` is the quoted empty field and decodes to it. -/
theorem parseFields_quoting_round_trip_witness :
    (joinComma ([([97], false), ([98, 34, 99], true), ([100], false)].map writeField)
        = [97, 44, 34, 98, 34, 34, 99, 34, 44, 100]
      ∧ parseFields [97, 44, 34, 98, 34, 34, 99, 34, 44, 100]
        = .ok [[97], [98, 34, 99], [100]])
    ∧ (joinComma ([([], true)].map writeField) = [34, 34]
      ∧ parseFields [34, 34] = .ok [[]]) :=
  ⟨⟨by decide, parseFields_quoting_round_trip
      [([97], false), ([98, 34, 99], true), ([100], false)] (by decide) (by decide)⟩,
   ⟨by decide, parseFields_quoting_round_trip [([], true)] (by decide) (by decide)⟩⟩

/-- C4 (unquoted round trip): for a non-empty list of fields none of which holds a comma,
a double-quote or a line-feed, `parseFields` on the fields joined with single commas
returns exactly those fields, in order, with no error. -/
theorem parseFields_unquoted_round_trip (fs : List (List Byte)) (hne : fs ≠ [])
    (hfs : ∀ f ∈ fs, COMMA ∉ f ∧ QUOTE ∉ f ∧ LF ∉ f) :
    parseFields (joinComma fs) = .ok fs := by
  have h := parseLoop_joinComma (fs.map (fun f => (f, false))) [] (by simpa using hne)
    (by
      intro w hw _
      obtain ⟨f, hf, rfl⟩ := List.mem_map.mp hw
      exact ⟨(hfs f hf).1, (hfs f hf).2.1⟩)
  have e1 : (fs.map (fun f => (f, false))).map writeField = fs := by
    simp [List.map_map, Function.comp_def, writeField]
  have e2 : (fs.map (fun f => (f, false))).map Prod.fst = fs := by
    simp [List.map_map, Function.comp_def]
  rw [e1, e2] at h
  simpa [parseFields] using h

/-- Witness for C4: the fields `ab`, the empty field and `c`, joined as `ab,,c`. -/
theorem parseFields_unquoted_round_trip_witness :
    joinComma [[97, 98], [], [99]] = [97, 98, 44, 44, 99]
      ∧ parseFields [97, 98, 44, 44, 99] = .ok [[97, 98], [], [99]] :=
  ⟨by decide, parseFields_unquoted_round_trip [[97, 98], [], [99]] (by decide) (by decide)⟩

/-- C5 (mid-field quote): when `p` holds no double-quote, is non-empty and does not end
with a comma, `parseFields` on `p`, a double-quote and any `rest` fails with `ErrQuote`
and returns no field list. -/
theorem parseFields_mid_field_quote (p rest : List Byte) (hq : QUOTE ∉ p) (hne : p ≠ [])
    (hl : p.getLast? ≠ some COMMA) :
    parseFields (p ++ [QUOTE] ++ rest) = .error .ErrQuote := by
  have h := parseLoop_midQuote p rest [] [] hq (fun h => absurd h hne) hl
  simpa [parseFields] using h

/-- Witness for C5: the record `ab"cd,ef`. -/
theorem parseFields_mid_field_quote_witness :
    parseFields [97, 98, 34, 99, 100, 44, 101, 102] = .error .ErrQuote :=
  parseFields_mid_field_quote [97, 98] [99, 100, 44, 101, 102] (by decide) (by decide)
    (by decide)

/-- C7 (unbalanced quoting): on every record with an odd number of double-quote bytes
`parseFields` fails with `ErrQuote`; it never returns a field list. -/
theorem parseFields_odd_quotes (line : List Byte) (h : line.count QUOTE % 2 = 1) :
    parseFields line = .error .ErrQuote := by
  apply parseLoop_odd line.length line (Nat.le_refl _)
  simpa using h

/-- Witness for C7: the record `a,"b,c` handed directly to `parseFields`. -/
theorem parseFields_odd_quotes_witness :
    [97, 44, 34, 98, 44, 99].count QUOTE % 2 = 1
      ∧ parseFields [97, 44, 34, 98, 44, 99] = .error .ErrQuote :=
  ⟨by decide, parseFields_odd_quotes [97, 44, 34, 98, 44, 99] (by decide)⟩

/-- C2 (newlines inside quotes are data): for a non-empty list of fields free of
carriage-returns, all written quoted and joined by commas into `enc`, `ReadLine` on a
source delivering `enc`, one line-feed and any `rest` returns the text `enc` with no
error, exposes exactly the fields through `GetNumberOfFields` and `GetField`, and leaves
the source at `rest`. -/
theorem ReadLine_quoted_newlines (p : parser) (fs : List (List Byte)) (rest : List Byte)
    (hne : fs ≠ []) (hcr : ∀ f ∈ fs, CR ∉ f) :
    (ReadLine p (ofBytes (joinComma (fs.map quoted) ++ [LF] ++ rest))).text
        = joinComma (fs.map quoted)
      ∧ (ReadLine p (ofBytes (joinComma (fs.map quoted) ++ [LF] ++ rest))).err = none
      ∧ GetNumberOfFields (ReadLine p (ofBytes (joinComma (fs.map quoted) ++ [LF] ++ rest))).p
        = fs.length
      ∧ (∀ (i : Nat) (h : i < fs.length),
          GetField (ReadLine p (ofBytes (joinComma (fs.map quoted) ++ [LF] ++ rest))).p i
            = (fs[i], none))
      ∧ (ReadLine p (ofBytes (joinComma (fs.map quoted) ++ [LF] ++ rest))).rest
        = ofBytes rest := by
  have hloop : readLoop (ofBytes (joinComma (fs.map quoted) ++ [LF] ++ rest)) [] false
      = ⟨joinComma (fs.map quoted), .brk, ofBytes rest⟩ := by
    rw [List.append_assoc, ofBytes_append, readLoop_joinQuoted _ _ _ hne hcr]
    simp only [List.nil_append, List.singleton_append, ofBytes_cons]
    exact readLoop_LF _ _
  rw [ReadLine_record p _ _ _ _ hloop (parseFields_joinQuoted fs hne)]
  refine ⟨rfl, rfl, rfl, ?_, rfl⟩
  intro i h
  exact GetField_natCast ⟨joinComma (fs.map quoted), fs⟩ i h

/-- Witness for C2: the fields `a` line-feed `b` and `c"`, written `"a` line-feed
`b","c"""`, followed by a line-feed and the bytes `xy`. -/
theorem ReadLine_quoted_newlines_witness :
    joinComma ([[97, 10, 98], [99, 34]].map quoted)
        = [34, 97, 10, 98, 34, 44, 34, 99, 34, 34, 34]
      ∧ (ReadLine NewParser
          (ofBytes ([34, 97, 10, 98, 34, 44, 34, 99, 34, 34, 34] ++ [LF] ++ [120, 121]))).p.fields
        = [[97, 10, 98], [99, 34]]
      ∧ (ReadLine NewParser
          (ofBytes ([34, 97, 10, 98, 34, 44, 34, 99, 34, 34, 34] ++ [LF] ++ [120, 121]))).rest
        = ofBytes [120, 121] :=
  ⟨by decide, by decide,
    (ReadLine_quoted_newlines NewParser [[97, 10, 98], [99, 34]] [120, 121] (by decide)
      (by decide)).2.2.2.2⟩

/-- C3 (successive reads): for records free of double-quotes, carriage-returns and
line-feeds, the last one non-empty, each but the last followed by LF or CR LF, calling
`ReadLine` once more than there are records returns every record in turn with no error
and with its fields equal to the record split at its commas, and then `io.EOF`. -/
theorem readLines_stream (p : parser) (rs : List (List Byte × Bool)) (last : List Byte)
    (hrs : ∀ r ∈ rs, QUOTE ∉ r.1 ∧ CR ∉ r.1 ∧ LF ∉ r.1)
    (hlast : QUOTE ∉ last ∧ CR ∉ last ∧ LF ∉ last) (hne : last ≠ []) :
    readLines (rs.length + 2) p (ofBytes (stream rs last))
      = (rs.map Prod.fst ++ [last]).map (fun r => (r, none, r.splitOn COMMA))
          ++ [([], some .EOF, [])] := by
  induction rs generalizing p with
  | nil =>
      simp only [List.length_nil, stream, List.map_nil, List.nil_append, List.map_cons,
        List.singleton_append]
      rw [readLines, ReadLine_last p last hne hlast.1 hlast.2.1 hlast.2.2, readLines,
        ReadLine_exhausted, readLines]
  | cons r rs ih =>
      obtain ⟨h1, h2, h3⟩ := hrs r (by simp)
      simp only [List.length_cons, stream, List.map_cons, List.cons_append]
      rw [readLines, ReadLine_terminated p r.1 r.2 _ h1 h2 h3]
      simp only
      rw [ih _ (fun u hu => hrs u (List.mem_cons_of_mem _ hu))]

/-- Witness for C3: the stream `a,b,c` CR LF `d,e,f` yields the fields `a`, `b`, `c`, then
`d`, `e`, `f`, then `io.EOF`. -/
theorem readLines_stream_witness :
    stream [([97, 44, 98, 44, 99], true)] [100, 44, 101, 44, 102]
        = [97, 44, 98, 44, 99, 13, 10, 100, 44, 101, 44, 102]
      ∧ readLines 3 NewParser (ofBytes [97, 44, 98, 44, 99, 13, 10, 100, 44, 101, 44, 102])
        = [([97, 44, 98, 44, 99], none, [[97], [98], [99]]),
           ([100, 44, 101, 44, 102], none, [[100], [101], [102]]),
           ([], some .EOF, [])] :=
  ⟨by decide, readLines_stream NewParser [([97, 44, 98, 44, 99], true)]
    [100, 44, 101, 44, 102] (by decide) (by decide) (by decide)⟩

/-- C6 (unterminated quote at end of stream): on a finite byte stream in which every
line-feed comes after an odd number of double-quote bytes and whose double-quote bytes
are odd in number, the loop of `ReadLine` is left by `return "", ErrQuote`, so the call of
`parseFields` after the loop is not reached, and `ReadLine` returns the empty text with
`ErrQuote`. -/
theorem ReadLine_unterminated_quote (p : parser) (s : List Byte)
    (hlf : ∀ (i : Nat) (h : i < s.length), s[i] = LF → (s.take i).count QUOTE % 2 = 1)
    (hodd : s.count QUOTE % 2 = 1) :
    (readLoop (ofBytes s) [] false).exit = .ret .ErrQuote
      ∧ (ReadLine p (ofBytes s)).text = []
      ∧ (ReadLine p (ofBytes s)).err = some .ErrQuote := by
  have hloop := readLoop_unterminated s [] false
    (by
      intro pre post hs
      subst hs
      have h1 := hlf pre.length (by simp)
        (by rw [List.getElem_append_right (Nat.le_refl _)]; simp)
      simpa using h1)
    (by simpa using hodd)
  rw [ReadLine_ret p _ _ _ _ hloop, hloop]
  exact ⟨rfl, rfl, rfl⟩

/-- Witness for C6: a stream holding exactly `a,"b,c`, and one holding `a,"b` line-feed
`c`, where the line-feed lies inside the open quote. -/
theorem ReadLine_unterminated_quote_witness :
    ((ReadLine NewParser (ofBytes [97, 44, 34, 98, 44, 99])).text = []
      ∧ (ReadLine NewParser (ofBytes [97, 44, 34, 98, 44, 99])).err = some .ErrQuote)
    ∧ ((ReadLine NewParser (ofBytes [97, 44, 34, 98, 10, 99])).text = []
      ∧ (ReadLine NewParser (ofBytes [97, 44, 34, 98, 10, 99])).err = some .ErrQuote) :=
  ⟨(ReadLine_unterminated_quote NewParser [97, 44, 34, 98, 44, 99] (by decide)
      (by decide)).2,
   (ReadLine_unterminated_quote NewParser [97, 44, 34, 98, 10, 99] (by decide)
      (by decide)).2⟩

/-- C8 (end-of-stream signalling): over a finite byte stream `ReadLine` returns `io.EOF`,
with empty text, exactly when the stream holds nothing but carriage-returns; on the empty
stream it returns `io.EOF` and exposes no field; on a stream that starts with a line-feed
it returns the empty text with no error and exposes one empty field. -/
theorem ReadLine_EOF_iff (p : parser) :
    (∀ s : List Byte,
      ((ReadLine p (ofBytes s)).err = some .EOF ∧ (ReadLine p (ofBytes s)).text = [])
        ↔ ∀ b ∈ s, b = CR)
    ∧ ((ReadLine p (ofBytes [])).err = some .EOF
      ∧ (ReadLine p (ofBytes [])).text = []
      ∧ GetNumberOfFields (ReadLine p (ofBytes [])).p = 0)
    ∧ (∀ rest : List Byte,
      ReadLine p (ofBytes (LF :: rest)) = ⟨[], none, ⟨[], [[]]⟩, ofBytes rest⟩) := by
  refine ⟨?_, ?_, ?_⟩
  · intro s
    rw [ReadLine_err_EOF, readLoop_EOF_iff]
  · rw [ofBytes_nil, ReadLine_exhausted]
    exact ⟨rfl, rfl, rfl⟩
  · intro rest
    exact ReadLine_record p _ _ _ _ (readLoop_LF _ _) rfl

/-- C9 (failing inputs): a read that delivers a carriage-return together with a fault has
its fault dropped by the `continue`, the next read is performed and the record `a` is
returned with no error; a read that delivers a line-feed outside quotes together with a
fault has its fault dropped by the `break` and an empty record is returned with no
error. -/
theorem ReadLine_fault_dropped :
    ReadLine NewParser [⟨some CR, some (.other 1)⟩, ⟨some 97, none⟩]
        = ⟨[97], none, ⟨[97], [[97]]⟩, []⟩
      ∧ ReadLine NewParser [⟨some LF, some (.other 1)⟩] = ⟨[], none, ⟨[], [[]]⟩, []⟩ := by
  decide

/-- C10 (carriage-return is insignificant): over a finite byte stream `s`, `ReadLine`
returns the same text and the same error and leaves the same fields as over `s` with
every carriage-return deleted, and the unread bytes of the two streams are equal once
their carriage-returns are deleted. -/
theorem ReadLine_stripCR (p : parser) (s : List Byte) :
    (ReadLine p (ofBytes (stripCR s))).text = (ReadLine p (ofBytes s)).text
      ∧ (ReadLine p (ofBytes (stripCR s))).err = (ReadLine p (ofBytes s)).err
      ∧ (ReadLine p (ofBytes (stripCR s))).p.fields = (ReadLine p (ofBytes s)).p.fields
      ∧ ∃ r1 r2, (ReadLine p (ofBytes s)).rest = ofBytes r1
        ∧ (ReadLine p (ofBytes (stripCR s))).rest = ofBytes r2
        ∧ stripCR r1 = stripCR r2 := by
  obtain ⟨hb, he, r, hr1, hr2⟩ := readLoop_stripCR s [] false
  have hidem : stripCR r = stripCR (stripCR r) := by simp [stripCR]
  simp only [ReadLine_eq]
  rw [hb, he]
  cases (readLoop (ofBytes s) [] false).exit with
  | brk =>
      cases parseFields (readLoop (ofBytes s) [] false).buffer with
      | error e => exact ⟨rfl, rfl, rfl, r, stripCR r, hr1, hr2, hidem⟩
      | ok fields => exact ⟨rfl, rfl, rfl, r, stripCR r, hr1, hr2, hidem⟩
  | ret e => exact ⟨rfl, rfl, rfl, r, stripCR r, hr1, hr2, hidem⟩

/-- C11 (bounds-checked field access): for every parser state and every integer `n`,
`GetField n` returns the `n`-th field (0-based) with no error when
`0 <= n < GetNumberOfFields()`, and the empty string with `ErrFieldCount` otherwise; in
particular `GetField (GetNumberOfFields())` and `GetField` of a negative index fail. -/
theorem GetField_bounds (p : parser) (n : Int) :
    (0 ≤ n ∧ n < GetNumberOfFields p →
        ∃ h : n.toNat < p.fields.length, GetField p n = (p.fields[n.toNat], none))
      ∧ (¬ (0 ≤ n ∧ n < GetNumberOfFields p) → GetField p n = ([], some .ErrFieldCount))
      ∧ GetField p (GetNumberOfFields p) = ([], some .ErrFieldCount)
      ∧ (n < 0 → GetField p n = ([], some .ErrFieldCount)) := by
  refine ⟨?_, ?_, ?_, ?_⟩
  · rintro ⟨h0, h1⟩
    simp only [GetNumberOfFields] at h1
    have hlt : n.toNat < p.fields.length := by omega
    refine ⟨hlt, ?_⟩
    have hc : ¬ (n < 0 ∨ n ≥ (p.fields.length : Int)) := by omega
    simp only [GetField, if_neg hc]
    rw [List.getD_eq_getElem _ _ hlt]
  · intro h
    simp only [GetNumberOfFields] at h
    have hc : n < 0 ∨ n ≥ (p.fields.length : Int) := by omega
    simp only [GetField, if_pos hc]
  · have hc : GetNumberOfFields p < 0 ∨ GetNumberOfFields p ≥ (p.fields.length : Int) := by
      simp only [GetNumberOfFields]
      omega
    simp only [GetField, if_pos hc]
  · intro h
    have hc : n < 0 ∨ n ≥ (p.fields.length : Int) := Or.inl h
    simp only [GetField, if_pos hc]

/-- C12 (no stale fields after a failed read): for every parser state and every source,
when `ReadLine` returns an error, afterwards `GetNumberOfFields()` is 0 and `GetField n`
fails with `ErrFieldCount` for every `n`. -/
theorem ReadLine_no_stale_fields (p : parser) (r : Source)
    (h : (ReadLine p r).err ≠ none) :
    GetNumberOfFields (ReadLine p r).p = 0
      ∧ ∀ n : Int, GetField (ReadLine p r).p n = ([], some .ErrFieldCount) := by
  have hf := ReadLine_err_fields p r h
  refine ⟨by simp [GetNumberOfFields, hf], ?_⟩
  intro n
  have hc : n < 0 ∨ n ≥ (((ReadLine p r).p.fields.length : Nat) : Int) := by
    rw [hf]
    simp only [List.length_nil]
    omega
  simp only [GetField, if_pos hc]

/-- Witness for C12: a parser that holds the fields `x`, `y` of an earlier record, on the
empty stream (`io.EOF`), on `"a` (scanner `ErrQuote`), on `a"b"` (decoder `ErrQuote`) and
on a reader whose first read returns a fault. -/
theorem ReadLine_no_stale_fields_witness :
    ((ReadLine ⟨[120, 44, 121], [[120], [121]]⟩ []).err = some .EOF
      ∧ GetField (ReadLine ⟨[120, 44, 121], [[120], [121]]⟩ []).p 0
        = ([], some .ErrFieldCount))
    ∧ ((ReadLine ⟨[120, 44, 121], [[120], [121]]⟩ (ofBytes [34, 97])).err = some .ErrQuote
      ∧ GetField (ReadLine ⟨[120, 44, 121], [[120], [121]]⟩ (ofBytes [34, 97])).p 0
        = ([], some .ErrFieldCount))
    ∧ ((ReadLine ⟨[120, 44, 121], [[120], [121]]⟩ (ofBytes [97, 34, 98, 34])).err
        = some .ErrQuote
      ∧ GetField (ReadLine ⟨[120, 44, 121], [[120], [121]]⟩ (ofBytes [97, 34, 98, 34])).p 1
        = ([], some .ErrFieldCount))
    ∧ ((ReadLine ⟨[120, 44, 121], [[120], [121]]⟩ [⟨none, some (.other 1)⟩]).err
        = some (.other 1)
      ∧ GetNumberOfFields
          (ReadLine ⟨[120, 44, 121], [[120], [121]]⟩ [⟨none, some (.other 1)⟩]).p = 0) :=
  ⟨⟨by decide,
      (ReadLine_no_stale_fields ⟨[120, 44, 121], [[120], [121]]⟩ [] (by decide)).2 0⟩,
   ⟨by decide,
      (ReadLine_no_stale_fields ⟨[120, 44, 121], [[120], [121]]⟩ (ofBytes [34, 97])
        (by decide)).2 0⟩,
   ⟨by decide,
      (ReadLine_no_stale_fields ⟨[120, 44, 121], [[120], [121]]⟩ (ofBytes [97, 34, 98, 34])
        (by decide)).2 1⟩,
   ⟨by decide,
      (ReadLine_no_stale_fields ⟨[120, 44, 121], [[120], [121]]⟩ [⟨none, some (.other 1)⟩]
        (by decide)).1⟩⟩

/-- C13 (the view agrees with re-decoding the returned text): for every parser state and
source, when `ReadLine` returns the text `t` with no error, `parseFields t` succeeds with
some `fs`, `GetNumberOfFields()` is the length of `fs` and `GetField i` returns `fs[i]`
for every `0 <= i < length fs`. -/
theorem ReadLine_view_redecode (p : parser) (r : Source) (h : (ReadLine p r).err = none) :
    ∃ fs, parseFields (ReadLine p r).text = .ok fs
      ∧ GetNumberOfFields (ReadLine p r).p = fs.length
      ∧ ∀ (i : Nat) (hi : i < fs.length), GetField (ReadLine p r).p i = (fs[i], none) := by
  obtain ⟨_, _, hp⟩ := ReadLine_ok p r h
  exact ⟨(ReadLine p r).p.fields, hp, rfl, fun i hi => GetField_natCast _ i hi⟩

/-- Witness for C13: the stream `a,"b,c"` line-feed `z`. -/
theorem ReadLine_view_redecode_witness :
    (ReadLine NewParser (ofBytes [97, 44, 34, 98, 44, 99, 34, 10, 122])).err = none
      ∧ ∃ fs, parseFields (ReadLine NewParser
            (ofBytes [97, 44, 34, 98, 44, 99, 34, 10, 122])).text = .ok fs
        ∧ GetNumberOfFields (ReadLine NewParser
            (ofBytes [97, 44, 34, 98, 44, 99, 34, 10, 122])).p = fs.length
        ∧ ∀ (i : Nat) (hi : i < fs.length),
            GetField (ReadLine NewParser
              (ofBytes [97, 44, 34, 98, 44, 99, 34, 10, 122])).p i = (fs[i], none) :=
  ⟨by decide, ReadLine_view_redecode NewParser
    (ofBytes [97, 44, 34, 98, 44, 99, 34, 10, 122]) (by decide)⟩

/-- C14 (counterexample): `parseFields` on the record `"ab"cd` does not fail with
`ErrQuote`; it returns the one field `abcd`. -/
theorem parseFields_after_closed_quote_counterexample :
    ¬ (parseFields [34, 97, 98, 34, 99, 100] = .error .ErrQuote)
      ∧ parseFields [34, 97, 98, 34, 99, 100] = .ok [[97, 98, 99, 100]] := by
  decide

/-- C14 (amended): bytes after a closed quoted span are appended to the same field: a
quoted field followed by bytes free of commas and double-quotes decodes to one field, the
field followed by those bytes; what is rejected with `ErrQuote` is a further double-quote
after such bytes. -/
theorem parseFields_after_closed_quote (f g rest : List Byte) (hc : COMMA ∉ g)
    (hq : QUOTE ∉ g) :
    parseFields (quoted f ++ g) = .ok [f ++ g]
      ∧ (g ≠ [] → parseFields (quoted f ++ g ++ QUOTE :: rest) = .error .ErrQuote) := by
  constructor
  · have h := parseLoop_quoted_then_bare f g [] [] hc hq (by simp)
    simp only [List.append_nil] at h
    rw [parseFields, h, parseLoop_nil]
    simp
  · intro hg
    have h := parseLoop_quoted_then_bare f g (QUOTE :: rest) [] hc hq (fun h0 => absurd h0 hg)
    have hne : QUOTE ≠ COMMA := by decide
    have hfg : (f ++ g).length ≠ 0 := by
      have : g.length ≠ 0 := by simpa using hg
      simp only [List.length_append]
      omega
    rw [parseFields, h, parseLoop_outside, if_neg hne, if_pos rfl, if_neg hfg]

/-- Witness for C14 (amended): the record `"ab"cd` decodes to the field `abcd`, and the
record `"ab"cd"e` is rejected. -/
theorem parseFields_after_closed_quote_witness :
    parseFields [34, 97, 98, 34, 99, 100] = .ok [[97, 98, 99, 100]]
      ∧ parseFields [34, 97, 98, 34, 99, 100, 34, 101] = .error .ErrQuote :=
  ⟨(parseFields_after_closed_quote [97, 98] [99, 100] [101] (by decide) (by decide)).1,
   (parseFields_after_closed_quote [97, 98] [99, 100] [101] (by decide) (by decide)).2
     (by decide)⟩

/-- C15 (field count of unquoted records): on every record without a double-quote
`parseFields` succeeds and returns one field more than the record has commas. -/
theorem parseFields_field_count (line : List Byte) (hq : QUOTE ∉ line) :
    ∃ fs, parseFields line = .ok fs ∧ fs.length = 1 + line.count COMMA := by
  obtain ⟨fs, h1, h2⟩ := parseLoop_count line [] [] hq
  refine ⟨fs, h1, ?_⟩
  rw [h2]
  simp

/-- Witness for C15: the record `a,,b,` has three commas and four fields. -/
theorem parseFields_field_count_witness :
    [97, 44, 44, 98, 44].count COMMA = 3
      ∧ ∃ fs, parseFields [97, 44, 44, 98, 44] = .ok fs
        ∧ fs.length = 1 + [97, 44, 44, 98, 44].count COMMA :=
  ⟨by decide, parseFields_field_count [97, 44, 44, 98, 44] (by decide)⟩

/-- C16 (trailing comma): when `parseFields r` succeeds with the fields `fs`,
`parseFields` on `r` followed by a comma succeeds with `fs` followed by one empty
field. -/
theorem parseFields_trailing_comma (r : List Byte) (fs : List (List Byte))
    (h : parseFields r = .ok fs) :
    parseFields (r ++ [COMMA]) = .ok (fs ++ [[]]) :=
  parseLoop_trailing_comma r [] [] false fs h

/-- Witness for C16: the record `a,"b"""`, which ends in a closing quote. -/
theorem parseFields_trailing_comma_witness :
    parseFields [97, 44, 34, 98, 34, 34, 34] = .ok [[97], [98, 34]]
      ∧ parseFields [97, 44, 34, 98, 34, 34, 34, 44] = .ok [[97], [98, 34], []] :=
  ⟨by decide, parseFields_trailing_comma [97, 44, 34, 98, 34, 34, 34] [[97], [98, 34]]
    (by decide)⟩

/-- C17 (a record is never zero fields): when `parseFields` succeeds the field list has
at least one element, and on the empty record it succeeds with exactly one field, the
empty string. -/
theorem parseFields_never_zero_fields :
    (∀ (line : List Byte) (fs : List (List Byte)), parseFields line = .ok fs → 1 ≤ fs.length)
      ∧ parseFields [] = .ok [[]] := by
  refine ⟨?_, rfl⟩
  intro line fs h
  have := parseLoop_length line [] [] false fs h
  simpa using this

/-- Witness for C17: the record `,` decodes to two empty fields. -/
theorem parseFields_never_zero_fields_witness :
    parseFields [44] = .ok [[], []]
      ∧ 1 ≤ ([[], []] : List (List Byte)).length ∧ parseFields [] = .ok [[]] :=
  ⟨by decide, parseFields_never_zero_fields.1 [44] [[], []] (by decide),
    parseFields_never_zero_fields.2⟩

/-- C18 (no hidden state between reads): for every source and any two parser states,
`ReadLine` returns the same text and the same error, leaves the same unread source and
leaves `GetNumberOfFields` and `GetField` answering alike; and `parseFields` on equal
bytes returns equal results. -/
theorem ReadLine_no_hidden_state (p1 p2 : parser) (r : Source) :
    (ReadLine p1 r).text = (ReadLine p2 r).text
      ∧ (ReadLine p1 r).err = (ReadLine p2 r).err
      ∧ (ReadLine p1 r).rest = (ReadLine p2 r).rest
      ∧ GetNumberOfFields (ReadLine p1 r).p = GetNumberOfFields (ReadLine p2 r).p
      ∧ (∀ n : Int, GetField (ReadLine p1 r).p n = GetField (ReadLine p2 r).p n)
      ∧ (∀ a b : List Byte, a = b → parseFields a = parseFields b) := by
  have h : ReadLine p1 r = ReadLine p2 r := by rw [ReadLine_eq, ReadLine_eq]
  rw [h]
  exact ⟨rfl, rfl, rfl, rfl, fun _ => rfl, fun a b hab => by rw [hab]⟩

/-- C19 (the end-of-input quote check is redundant behind the scanner): on a record with
an even number of double-quotes, when the loop of `parseFields` reaches the end of the
record it is outside quotes, so `parseFields` fails on such a record only by the
`return nil, ErrQuote` inside its loop; and every buffer that the loop of `ReadLine`
hands on by `break` holds an even number of double-quotes. -/
theorem parseFields_end_check_redundant (line : List Byte)
    (heven : line.count QUOTE % 2 = 0) :
    (∀ st, parsePass line [] [] false = .ok st → st.2.2 = false)
      ∧ (∀ e, parseFields line = .error e → parsePass line [] [] false = .error .ErrQuote)
      ∧ (∀ r : Source, (readLoop r [] false).exit = .brk →
          (readLoop r [] false).buffer.count QUOTE % 2 = 0) := by
  have hpass : ∀ st, parsePass line [] [] false = .ok st → st.2.2 = false := by
    intro st h
    have := parsePass_parity line [] [] false st h
    cases hq : st.2.2 with
    | false => rfl
    | true =>
        rw [hq] at this
        simp only [Bool.false_eq_true, if_false, Nat.add_zero, if_true] at this
        omega
  refine ⟨hpass, ?_, fun r h => (readLoop_brk_shape r h).2.1⟩
  intro e h
  rw [parseFields, parseLoop_eq_pass] at h
  cases hp : parsePass line [] [] false with
  | error e2 => rw [parsePass_error line [] [] false e2 hp]
  | ok st =>
      rw [hp] at h
      simp [afterPass, hpass st hp] at h

/-- Witness for C19: the record `a"b"` has two double-quotes and is rejected inside the
loop; on the stream `"a"` line-feed the loop of `ReadLine` breaks and hands on a buffer
with two double-quotes. -/
theorem parseFields_end_check_redundant_witness :
    ([97, 34, 98, 34].count QUOTE % 2 = 0
      ∧ parsePass [97, 34, 98, 34] [] [] false = .error .ErrQuote)
    ∧ ((readLoop (ofBytes [34, 97, 34, 10]) [] false).exit = .brk
      ∧ (readLoop (ofBytes [34, 97, 34, 10]) [] false).buffer.count QUOTE % 2 = 0) :=
  ⟨⟨by decide,
      (parseFields_end_check_redundant [97, 34, 98, 34] (by decide)).2.1 .ErrQuote
        (by decide)⟩,
   ⟨by decide,
      (parseFields_end_check_redundant [97, 34, 98, 34] (by decide)).2.2
        (ofBytes [34, 97, 34, 10]) (by decide)⟩⟩

/-- C20 (shape of every returned raw record): for every parser state and source, when
`ReadLine` returns the text `t` with no error, `t` holds no carriage-return and every
line-feed of `t` comes after an odd number of double-quotes of `t`. -/
theorem ReadLine_text_shape (p : parser) (r : Source) (h : (ReadLine p r).err = none) :
    CR ∉ (ReadLine p r).text
      ∧ ∀ (i : Nat) (hi : i < (ReadLine p r).text.length),
          (ReadLine p r).text[i] = LF → ((ReadLine p r).text.take i).count QUOTE % 2 = 1 := by
  obtain ⟨hb, ht, _⟩ := ReadLine_ok p r h
  obtain ⟨hcr, _, hlf⟩ := readLoop_brk_shape r hb
  rw [ht]
  refine ⟨hcr, ?_⟩
  intro i hi hLF
  apply hlf ((readLoop r [] false).buffer.take i) ((readLoop r [] false).buffer.drop (i + 1))
  rw [← hLF, ← List.drop_eq_getElem_cons hi, List.take_append_drop]

/-- Witness for C20: the stream `"a` CR LF `b"` CR LF `c`, read by a parser behind a
reader that also hands back an empty read. -/
theorem ReadLine_text_shape_witness :
    (ReadLine NewParser (⟨none, none⟩ :: ofBytes [34, 97, 13, 10, 98, 34, 13, 10, 99])).text
        = [34, 97, 10, 98, 34]
      ∧ CR ∉ (ReadLine NewParser
          (⟨none, none⟩ :: ofBytes [34, 97, 13, 10, 98, 34, 13, 10, 99])).text :=
  ⟨by decide,
   (ReadLine_text_shape NewParser
      (⟨none, none⟩ :: ofBytes [34, 97, 13, 10, 98, 34, 13, 10, 99]) (by decide)).1⟩

end CsvParser
